import Mathlib

/-!
Verification development for the CASTLR inventory slot-cache and
item-transfer engine (`src/unnamed/part_000`, `src/inventory.ts`,
`src/lib/inventory.ts`, `src/storage.ts`, `src/data.ts`).

Lua tables (`LuaMap`) are embedded as association lists with
first-occurrence lookup; setting a key to `nil` removes it.  Item counts
are embedded as `Int` (Lua numbers used integrally), slot indices as
`Nat`.  The external inventory peripheral is an oracle parameter: every
`pushItems` boundary call is answered by an `Oracle` function, and the
concrete `honestOracle` answers with the amount a CC:Tweaked peripheral
would actually move when the caches are in sync with the physical
inventory.  Loops whose termination depends on runtime values (the
available-slot generator, the push loop, the ingredient-gathering loop)
take a fuel argument and report exhaustion explicitly.
-/

namespace Castlr

/-- First-match lookup in an association list (embeds `LuaMap.get`). -/
def lookupA {α β : Type} [DecidableEq α] : List (α × β) → α → Option β
  | [], _ => none
  | (k, v) :: t, key => if k = key then some v else lookupA t key

/-- Update the first binding of `key`, or append one (embeds `LuaMap.set`
with a non-nil value). -/
def setA {α β : Type} [DecidableEq α] : List (α × β) → α → β → List (α × β)
  | [], key, val => [(key, val)]
  | (k, v) :: t, key, val =>
    if k = key then (key, val) :: t else (k, v) :: setA t key val

/-- Remove the first binding of `key` (embeds `LuaMap.set` with `nil`). -/
def eraseA {α β : Type} [DecidableEq α] : List (α × β) → α → List (α × β)
  | [], _ => []
  | (k, v) :: t, key => if k = key then t else (k, v) :: eraseA t key

/-- `LuaMap.set` where the value may be `nil`: `none` removes the key. -/
def setOpt (m : List (Nat × Int)) (k : Nat) : Option Int → List (Nat × Int)
  | some v => setA m k v
  | none => eraseA m k

/-- Storage roles (`const enum StorageType`). -/
inductive StorageType where
  | Input | Output | Storage | NotInput
  deriving DecidableEq, Repr

/-- A slot's content as cached in `_list`: the runtime sets `count` to
`nil` when a slot is drained by `pushItems`, so `count` is optional. -/
structure SlotDetail where
  name : String
  count : Option Int
  deriving DecidableEq, Repr

/-- The `Inventory` wrapper state (`src/unnamed/part_000`):
`slots` is `_slots` (item name → slot index → count), `list` is `_list`
(slot index → slot detail).  The wrapped peripheral itself is external;
its answers enter through oracle / raw-listing parameters. -/
structure Inventory where
  pname : String
  stype : StorageType
  size : Nat
  itemLimit : Int
  slots : List (String × List (Nat × Int))
  list : List (Nat × SlotDetail)
  deriving DecidableEq, Repr

/-- `Inventory.getItemCount`: 0 for Input-role handles, otherwise the sum
of the cached per-slot counts for `name`. -/
def getItemCount (inv : Inventory) (name : String) : Int :=
  if inv.stype = StorageType.Input then 0
  else
    match lookupA inv.slots name with
    | none => 0
    | some m => m.foldl (fun total p => total + p.2) 0

/-- `Inventory.getSlot`: `this._list[slot]`. -/
def getSlot (inv : Inventory) (slot : Nat) : Option SlotDetail :=
  lookupA inv.list slot

/-- `Inventory.receiveItems`: fold `count` additional units of `name`
into `slot` in both cached structures.  Note the `_list` branch keeps the
existing entry's name and only overwrites its count, exactly as the
source does. -/
def receiveItems (inv : Inventory) (name : String) (slot : Nat) (count : Int) :
    Inventory :=
  let currentSlots := (lookupA inv.slots name).getD []
  let newAmount := (lookupA currentSlots slot).getD 0 + count
  { inv with
    slots := setA inv.slots name (setA currentSlots slot newAmount),
    list :=
      match lookupA inv.list slot with
      | none => setA inv.list slot ⟨name, some count⟩
      | some d => setA inv.list slot ⟨d.name, some newAmount⟩ }

/-- `Inventory.syncData`: rebuild both structures from the peripheral's
raw listing (slot, item name, count). -/
def syncData (inv : Inventory) (raw : List (Nat × String × Int)) : Inventory :=
  { inv with
    list := raw.map (fun r => (r.1, (⟨r.2.1, some r.2.2⟩ : SlotDetail))),
    slots := raw.foldl
      (fun acc r =>
        setA acc r.2.1 (setA ((lookupA acc r.2.1).getD []) r.1 r.2.2)) [] }

/-- Claim C5: for every handle `H` whose role is Input and every item
name `x`, `H.getItemCount(x)` returns 0, regardless of what the handle's
slot index records for `x`. -/
theorem inputRole_getItemCount_zero (inv : Inventory) (x : String)
    (h : inv.stype = StorageType.Input) : getItemCount inv x = 0 := by
  simp [getItemCount, h]

/-- Witness for C5: a concrete Input-role handle physically holding 7
units of an item still reports count 0. -/
theorem inputRole_getItemCount_zero_witness :
    (Inventory.mk "in" StorageType.Input 27 64 [("x", [(1, 7)])]
        [(1, ⟨"x", some 7⟩)]).stype = StorageType.Input ∧
    getItemCount
      (Inventory.mk "in" StorageType.Input 27 64 [("x", [(1, 7)])]
        [(1, ⟨"x", some 7⟩)]) "x" = 0 :=
  ⟨rfl, inputRole_getItemCount_zero _ "x" rfl⟩

/-!
## The available-slot generator

`getNextAvailableSlot` is a generator closed over the live handle.  Its
control state is a stack of frames: `start` marks an invocation whose
body has not begun (the snapshot of `_slots.get(name)` is taken when it
is first resumed, matching generator laziness); `p1` iterates that
snapshot yielding partially-filled slots; `p2 i` is the scan for empty
slots at index `i`, and yielding an empty slot pushes a fresh `start`
frame for the recursive delegation in the source.  `genStep` performs
one transition against the current handle state (the source reads
`this._list` and `this._slots` live). -/
inductive GFrame where
  | start
  | p1 (rem : List (Nat × Int))
  | p2 (i : Nat)
  deriving DecidableEq, Repr

/-- One transition of `getNextAvailableSlot`: `none` means the generator
is exhausted, `some (none, st)` an internal step, `some (some s, st)` a
yield of slot `s`. -/
def genStep (inv : Inventory) (name : String) :
    List GFrame → Option (Option Nat × List GFrame)
  | [] => none
  | .start :: rest =>
    some (none, .p1 ((lookupA inv.slots name).getD []) :: rest)
  | .p1 [] :: rest => some (none, .p2 1 :: rest)
  | .p1 ((s, c) :: rem) :: rest =>
    if c < inv.itemLimit then some (some s, .p1 rem :: rest)
    else some (none, .p1 rem :: rest)
  | .p2 i :: rest =>
    if inv.size < i then some (none, rest)
    else if lookupA inv.list i = none then
      some (some i, .start :: .p2 (i + 1) :: rest)
    else some (none, .p2 (i + 1) :: rest)

/-- Drive `genStep` to the next yield (`slotGenerator.next()`); `none`
means the step budget ran out before the generator yielded or died. -/
def nextYield (inv : Inventory) (name : String) :
    Nat → List GFrame → Option (Option Nat × List GFrame)
  | 0, _ => none
  | fuel + 1, st =>
    match genStep inv name st with
    | none => some (none, st)
    | some (none, st') => nextYield inv name fuel st'
    | some (some s, st') => some (some s, st')

/-- The full yield trace of the generator against a fixed handle state
(used for the claims about an unmutated handle), truncated by fuel. -/
def genRun (inv : Inventory) (name : String) :
    Nat → List GFrame → List Nat
  | 0, _ => []
  | fuel + 1, st =>
    match genStep inv name st with
    | none => []
    | some (none, st') => genRun inv name fuel st'
    | some (some s, st') => s :: genRun inv name fuel st'

/-!
## pushItems

The peripheral boundary call
`this._peripheral.pushItems(to.getName(), fromSlot, limit - totalMoved, nextSlot)`
is answered by an `Oracle`, which sees the call index and the current
cached states.  `honestOracle` is the CC:Tweaked peripheral's behaviour
when the caches agree with the physical inventories: it moves as much as
the request, the source slot content and the destination slot's room
allow. -/
def Oracle : Type :=
  Nat → Inventory → Inventory → Nat → Int → Nat → Int

/-- Reported amount for a peripheral whose physical state matches the
cached state: `min(requested, source slot count, destination room)`. -/
def honestOracle : Oracle := fun _ src dst fromSlot req toSlot =>
  let avail := ((lookupA src.list fromSlot).bind SlotDetail.count).getD 0
  let existing := ((lookupA dst.list toSlot).bind SlotDetail.count).getD 0
  max 0 (min req (min avail (dst.itemLimit - existing)))

/-- Result record of a completed `pushItems` call: the returned value
(`none` embeds the bare `return;` of the Input-role guard), the updated
handles, the external transfer calls issued as
(fromSlot, requested limit, destination slot), and whether the error
message was printed. -/
structure PushOut where
  ret : Option Int
  src : Inventory
  dst : Inventory
  calls : List (Nat × Int × Nat)
  errored : Bool
  deriving DecidableEq, Repr

/-- Outcome of `pushItems`: `crash` is a Lua runtime error (indexing a
`nil` slot entry), `fuelOut` an exhausted step budget. -/
inductive PRes where
  | crash
  | fuelOut
  | ok (out : PushOut)
  deriving DecidableEq, Repr

/-- The `while (totalMoved < limit && itemToMove.count !== undefined)`
loop of `pushItems`.  `name` is `itemToMove.name` (never reassigned);
the live `itemToMove.count` is read back from the source's `_list`.
A missing `_slots` entry for the item makes the
`this._slots.get(itemToMove.name).set(...)` call index `nil`: `crash`. -/
def pushLoop (orc : Oracle) (name : String) (fromSlot : Nat) (limit : Int) :
    Nat → Int → Nat → List GFrame → Inventory → Inventory →
    List (Nat × Int × Nat) → PRes
  | 0, totalMoved, _, _, src, dst, calls =>
    if totalMoved < limit ∧
        (lookupA src.list fromSlot).bind SlotDetail.count ≠ none then
      .fuelOut
    else .ok ⟨some totalMoved, src, dst, calls, false⟩
  | fuel + 1, totalMoved, k, gen, src, dst, calls =>
    let cnt := (lookupA src.list fromSlot).bind SlotDetail.count
    if totalMoved < limit ∧ cnt ≠ none then
      match nextYield dst name (fuel + 1) gen with
      | none => .fuelOut
      | some (none, _) => .ok ⟨some totalMoved, src, dst, calls, false⟩
      | some (some toSlot, gen') =>
        let req := limit - totalMoved
        let amountMoved := orc k src dst fromSlot req toSlot
        let c := cnt.getD 0
        let newSlotCount : Option Int :=
          if c ≠ amountMoved then some (c - amountMoved) else none
        match lookupA src.slots name with
        | none => .crash
        | some m =>
          pushLoop orc name fromSlot limit fuel (totalMoved + amountMoved)
            (k + 1) gen'
            { src with
              slots := setA src.slots name (setOpt m fromSlot newSlotCount),
              list := setA src.list fromSlot ⟨name, newSlotCount⟩ }
            (receiveItems dst name toSlot amountMoved)
            (calls ++ [(fromSlot, req, toSlot)])
    else .ok ⟨some totalMoved, src, dst, calls, false⟩

/-- `Inventory.pushItems` (`src/unnamed/part_000`): the Input-role guard
prints an error and returns `undefined`; an absent `_list[fromSlot]`
entry crashes on the first `itemToMove.…` access; otherwise the limit
defaults to the slot's current count and the transfer loop runs. -/
def pushItems (orc : Oracle) (fuel : Nat) (src dst : Inventory)
    (fromSlot : Nat) (limitArg : Option Int) : PRes :=
  if src.stype = StorageType.Input then .ok ⟨none, src, dst, [], true⟩
  else
    match lookupA src.list fromSlot with
    | none => .crash
    | some itemToMove =>
      pushLoop orc itemToMove.name fromSlot
        (limitArg.getD (itemToMove.count.getD 0)) fuel 0 0 [.start] src dst []

/-- Claim C7: pushing from an Input-role handle reports the error,
issues no external transfer call and leaves both handles' structures
unchanged (the call returns `undefined`). -/
theorem inputRole_pushItems_noop (orc : Oracle) (fuel : Nat)
    (src dst : Inventory) (fromSlot : Nat) (limitArg : Option Int)
    (h : src.stype = StorageType.Input) :
    pushItems orc fuel src dst fromSlot limitArg =
      .ok ⟨none, src, dst, [], true⟩ := by
  simp [pushItems, h]

/-- Witness for C7 at a concrete Input-role source holding items. -/
theorem inputRole_pushItems_noop_witness :
    pushItems honestOracle 9
      (Inventory.mk "in" StorageType.Input 27 64 [("x", [(1, 7)])]
        [(1, ⟨"x", some 7⟩)])
      (Inventory.mk "st" StorageType.Storage 27 64 [] []) 1 (some 5) =
      .ok ⟨none,
        Inventory.mk "in" StorageType.Input 27 64 [("x", [(1, 7)])]
          [(1, ⟨"x", some 7⟩)],
        Inventory.mk "st" StorageType.Storage 27 64 [] [], [], true⟩ :=
  inputRole_pushItems_noop honestOracle 9 _ _ 1 (some 5) rfl

/-- A Storage-role source whose slot 1 holds 5 "x" and whose slot 2 has
no slot-list entry at all. -/
def srcSlotTwoAbsent : Inventory :=
  ⟨"s", .Storage, 2, 64, [("x", [(1, 5)])], [(1, ⟨"x", some 5⟩)]⟩

/-- An empty Storage-role destination handle. -/
def dstPlain : Inventory := ⟨"d", .Storage, 2, 64, [], []⟩

/-- Counterexample to claim C8 as stated: it is not true that pushing
from a slot with no slot-list entry returns 0 without mutating the
destination — `pushItems` crashes indexing the `nil` entry
(`itemToMove.count` / `itemToMove.name` on `undefined`). -/
theorem pushItems_emptySlot_claim_false :
    ¬ (∀ (orc : Oracle) (fuel : Nat) (src dst : Inventory) (s : Nat)
        (lim : Option Int), lookupA src.list s = none →
        ∃ out, pushItems orc fuel src dst s lim = .ok out ∧
          out.ret = some 0 ∧ out.dst = dst ∧ out.calls = []) := by
  intro h
  obtain ⟨out, hok, -⟩ :=
    h honestOracle 5 srcSlotTwoAbsent dstPlain 2 none (by decide)
  rw [show pushItems honestOracle 5 srcSlotTwoAbsent dstPlain 2 none =
    PRes.crash from rfl] at hok
  exact PRes.noConfusion hok

/-- Claim C8 amended: when the slot-list entry for `fromSlot` exists but
carries no count (a slot drained to zero by an earlier push), `pushItems`
returns 0, issues no external transfer and leaves both handles
unchanged; when the slot list has no entry at `fromSlot` at all the call
instead fails with a Lua runtime error (see the counterexample). -/
theorem pushItems_drainedSlot_returns_zero (orc : Oracle) (fuel : Nat)
    (src dst : Inventory) (fromSlot : Nat) (limitArg : Option Int)
    (d : SlotDetail) (hrole : src.stype ≠ StorageType.Input)
    (hd : lookupA src.list fromSlot = some d) (hc : d.count = none) :
    pushItems orc fuel src dst fromSlot limitArg =
      .ok ⟨some 0, src, dst, [], false⟩ := by
  cases fuel <;> simp [pushItems, pushLoop, hrole, hd, hc]

/-- Witness for the amended C8: a concrete drained slot (entry with name
but no count) pushes 0 and changes nothing. -/
theorem pushItems_drainedSlot_returns_zero_witness :
    pushItems honestOracle 7
      (Inventory.mk "s" StorageType.Storage 2 64 [("x", [])]
        [(1, ⟨"x", none⟩)]) dstPlain 1 (some 3) =
      .ok ⟨some 0,
        Inventory.mk "s" StorageType.Storage 2 64 [("x", [])]
          [(1, ⟨"x", none⟩)], dstPlain, [], false⟩ :=
  pushItems_drainedSlot_returns_zero honestOracle 7 _ dstPlain 1 (some 3)
    ⟨"x", none⟩ (by decide) rfl rfl

/-! ## Association-list and sum lemmas -/

/-! ## Association-list and sum lemmas -/

theorem lookupA_setA_self {α β : Type} [DecidableEq α]
    (l : List (α × β)) (k : α) (v : β) : lookupA (setA l k v) k = some v := by
  induction l with
  | nil => simp [setA, lookupA]
  | cons p t ih =>
    obtain ⟨pk, pv⟩ := p
    by_cases hp : pk = k
    · simp [setA, hp, lookupA]
    · simp [setA, hp, lookupA, ih]

theorem lookupA_setA_ne {α β : Type} [DecidableEq α]
    (l : List (α × β)) (k k' : α) (v : β) (h : k' ≠ k) :
    lookupA (setA l k v) k' = lookupA l k' := by
  have hkk : k ≠ k' := Ne.symm h
  induction l with
  | nil => simp [setA, lookupA, hkk]
  | cons p t ih =>
    obtain ⟨pk, pv⟩ := p
    by_cases hp : pk = k
    · subst hp
      simp [setA, lookupA, hkk]
    · simp [setA, lookupA, hp, ih]

/-- Total of the counts in a slot-count map (the accumulation performed
by the `getItemCount` loop). -/
def sumVals (m : List (Nat × Int)) : Int :=
  m.foldl (fun total p => total + p.2) 0

theorem sumVals_nil : sumVals [] = 0 := rfl

theorem foldl_add_shift :
    ∀ (l : List (Nat × Int)) (a : Int),
      l.foldl (fun total p => total + p.2) a = a + sumVals l
  | [], a => by simp [sumVals]
  | p :: t, a => by
    simp only [List.foldl_cons, sumVals]
    rw [foldl_add_shift t (a + p.2), foldl_add_shift t (0 + p.2)]
    simp only [sumVals]
    ring

theorem sumVals_cons (p : Nat × Int) (t : List (Nat × Int)) :
    sumVals (p :: t) = p.2 + sumVals t := by
  simp only [sumVals, List.foldl_cons]
  rw [foldl_add_shift t (0 + p.2)]
  simp only [sumVals]
  ring

theorem sumVals_setA_some (m : List (Nat × Int)) (k : Nat) (c v : Int)
    (h : lookupA m k = some c) : sumVals (setA m k v) = sumVals m - c + v := by
  induction m with
  | nil => simp [lookupA] at h
  | cons p t ih =>
    obtain ⟨pk, pv⟩ := p
    by_cases hp : pk = k
    · simp only [lookupA] at h
      rw [if_pos hp] at h
      injection h with h
      subst h
      simp only [setA]
      rw [if_pos hp, sumVals_cons, sumVals_cons]
      ring
    · simp only [lookupA] at h
      rw [if_neg hp] at h
      simp only [setA]
      rw [if_neg hp, sumVals_cons, sumVals_cons, ih h]
      ring

theorem sumVals_setA_none (m : List (Nat × Int)) (k : Nat) (v : Int)
    (h : lookupA m k = none) : sumVals (setA m k v) = sumVals m + v := by
  induction m with
  | nil =>
    simp only [setA, sumVals_cons, sumVals_nil]
    ring
  | cons p t ih =>
    obtain ⟨pk, pv⟩ := p
    by_cases hp : pk = k
    · simp only [lookupA] at h
      rw [if_pos hp] at h
      cases h
    · simp only [lookupA] at h
      rw [if_neg hp] at h
      simp only [setA]
      rw [if_neg hp, sumVals_cons, sumVals_cons, ih h]
      ring

theorem sumVals_eraseA_some (m : List (Nat × Int)) (k : Nat) (c : Int)
    (h : lookupA m k = some c) : sumVals (eraseA m k) = sumVals m - c := by
  induction m with
  | nil => simp [lookupA] at h
  | cons p t ih =>
    obtain ⟨pk, pv⟩ := p
    by_cases hp : pk = k
    · simp only [lookupA] at h
      rw [if_pos hp] at h
      injection h with h
      subst h
      simp only [eraseA]
      rw [if_pos hp, sumVals_cons]
      ring
    · simp only [lookupA] at h
      rw [if_neg hp] at h
      simp only [eraseA]
      rw [if_neg hp, sumVals_cons, sumVals_cons, ih h]
      ring

theorem sumVals_setA_getD (m : List (Nat × Int)) (k : Nat) (a : Int) :
    sumVals (setA m k ((lookupA m k).getD 0 + a)) = sumVals m + a := by
  cases h : lookupA m k with
  | none =>
    simp only [Option.getD_none]
    rw [sumVals_setA_none m k (0 + a) h]
    ring
  | some c =>
    simp only [Option.getD_some]
    rw [sumVals_setA_some m k c (c + a) h]
    ring

/-- Total count recorded for item `x` in a handle's slot index. -/
def sumIndex (inv : Inventory) (x : String) : Int :=
  match lookupA inv.slots x with
  | none => 0
  | some m => sumVals m

theorem receiveItems_slots (dst : Inventory) (n : String) (s : Nat) (a : Int) :
    (receiveItems dst n s a).slots =
      setA dst.slots n (setA ((lookupA dst.slots n).getD []) s
        ((lookupA ((lookupA dst.slots n).getD []) s).getD 0 + a)) := rfl

theorem sumIndex_receiveItems (dst : Inventory) (n : String) (s : Nat)
    (a : Int) (x : String) :
    sumIndex (receiveItems dst n s a) x =
      sumIndex dst x + (if x = n then a else 0) := by
  by_cases hx : x = n
  · subst hx
    have hcur : sumIndex dst x = sumVals ((lookupA dst.slots x).getD []) := by
      unfold sumIndex
      cases hm : lookupA dst.slots x <;> simp [sumVals_nil]
    rw [if_pos rfl, hcur]
    unfold sumIndex
    rw [receiveItems_slots]
    simp only [lookupA_setA_self]
    exact sumVals_setA_getD _ s a
  · rw [if_neg hx, add_zero]
    unfold sumIndex
    rw [receiveItems_slots]
    rw [lookupA_setA_ne _ _ _ _ hx]

/-- Consistency of the two cached structures at one slot: if the
slot-list entry carries a count, the slot index records the same count
for that entry's item (decidable form, used as the stated hypothesis). -/
def consistB (inv : Inventory) (s : Nat) : Bool :=
  match lookupA inv.list s with
  | none => true
  | some d =>
    match d.count with
    | none => true
    | some c =>
      match lookupA inv.slots d.name with
      | none => true
      | some m => if lookupA m s = some c then true else false

/-- The loop-invariant form of `consistB` for a fixed item name. -/
def consistAt (src : Inventory) (name : String) (fromSlot : Nat) : Prop :=
  ∀ c, (lookupA src.list fromSlot).bind SlotDetail.count = some c →
    ∀ m, lookupA src.slots name = some m → lookupA m fromSlot = some c

theorem pushLoop_conserves (orc : Oracle) (itemName : String) (fromSlot : Nat)
    (limit : Int) :
    ∀ (fuel : Nat) (totalMoved : Int) (k : Nat) (gen : List GFrame)
      (src dst : Inventory) (calls : List (Nat × Int × Nat)) (out : PushOut),
      consistAt src itemName fromSlot →
      pushLoop orc itemName fromSlot limit fuel totalMoved k gen src dst calls =
        .ok out →
      ∀ x, sumIndex out.src x + sumIndex out.dst x =
        sumIndex src x + sumIndex dst x := by
  intro fuel
  induction fuel with
  | zero =>
    intro totalMoved k gen src dst calls out _ hok x
    simp only [pushLoop] at hok
    split at hok
    · exact PRes.noConfusion hok
    · injection hok with hout
      subst hout
      rfl
  | succ f ih =>
    intro totalMoved k gen src dst calls out hJ hok x
    simp only [pushLoop] at hok
    split at hok
    case isFalse =>
      injection hok with hout
      subst hout
      rfl
    case isTrue hguard =>
      obtain ⟨-, hcnt⟩ := hguard
      obtain ⟨c, hc⟩ := Option.ne_none_iff_exists'.mp hcnt
      rw [hc] at hok
      simp only [Option.getD_some] at hok
      cases hyld : nextYield dst itemName (f + 1) gen with
      | none => rw [hyld] at hok; exact PRes.noConfusion hok
      | some r =>
        obtain ⟨y, gen'⟩ := r
        cases y with
        | none =>
          rw [hyld] at hok
          dsimp only at hok
          injection hok with hout
          subst hout
          rfl
        | some toSlot =>
          rw [hyld] at hok
          dsimp only at hok
          cases hm : lookupA src.slots itemName with
          | none => rw [hm] at hok; exact PRes.noConfusion hok
          | some m =>
            rw [hm] at hok
            dsimp only at hok
            have hmc : lookupA m fromSlot = some c := hJ c hc m hm
            by_cases hca : c = orc k src dst fromSlot (limit - totalMoved) toSlot
            · -- the whole slot count moves: the index entry is removed
              rw [if_neg (fun hne => hne hca)] at hok
              have hJ' : consistAt
                  { src with
                    slots := setA src.slots itemName (setOpt m fromSlot none),
                    list := setA src.list fromSlot ⟨itemName, none⟩ }
                  itemName fromSlot := by
                intro c' hc' m' hm'
                simp only [lookupA_setA_self, Option.bind] at hc'
                exact Option.noConfusion hc'
              have hsum := ih _ _ _ _ _ _ _ hJ' hok x
              rw [hsum, sumIndex_receiveItems]
              by_cases hx : x = itemName
              · subst hx
                have hsx : sumIndex src x = sumVals m := by simp [sumIndex, hm]
                have hsx' : sumIndex
                    { src with
                      slots := setA src.slots x (setOpt m fromSlot none),
                      list := setA src.list fromSlot ⟨x, none⟩ } x =
                    sumVals m - c := by
                  simp only [sumIndex, lookupA_setA_self, setOpt]
                  exact sumVals_eraseA_some m fromSlot c hmc
                rw [hsx, hsx', if_pos rfl, ← hca]
                ring
              · have hsx' : sumIndex
                    { src with
                      slots := setA src.slots itemName (setOpt m fromSlot none),
                      list := setA src.list fromSlot ⟨itemName, none⟩ } x =
                    sumIndex src x := by
                  simp only [sumIndex]
                  rw [lookupA_setA_ne _ _ _ _ hx]
                rw [hsx', if_neg hx]
                ring
            · -- a strict part of the slot count moves: the entry is updated
              rw [if_pos hca] at hok
              have hJ' : consistAt
                  { src with
                    slots := setA src.slots itemName (setOpt m fromSlot
                      (some (c - orc k src dst fromSlot (limit - totalMoved)
                        toSlot))),
                    list := setA src.list fromSlot ⟨itemName,
                      some (c - orc k src dst fromSlot (limit - totalMoved)
                        toSlot)⟩ } itemName fromSlot := by
                intro c' hc' m' hm'
                simp only [lookupA_setA_self, Option.bind] at hc' hm'
                injection hm' with hm'
                subst hm'
                injection hc' with hc'
                subst hc'
                simp only [setOpt, lookupA_setA_self]
              have hsum := ih _ _ _ _ _ _ _ hJ' hok x
              rw [hsum, sumIndex_receiveItems]
              by_cases hx : x = itemName
              · subst hx
                have hsx : sumIndex src x = sumVals m := by simp [sumIndex, hm]
                have hsx' : sumIndex
                    { src with
                      slots := setA src.slots x (setOpt m fromSlot
                        (some (c - orc k src dst fromSlot (limit - totalMoved)
                          toSlot))),
                      list := setA src.list fromSlot ⟨x,
                        some (c - orc k src dst fromSlot (limit - totalMoved)
                          toSlot)⟩ } x =
                    sumVals m - orc k src dst fromSlot (limit - totalMoved)
                      toSlot := by
                  simp only [sumIndex, lookupA_setA_self, setOpt]
                  rw [sumVals_setA_some m fromSlot c _ hmc]
                  ring
                rw [hsx, hsx', if_pos rfl]
                ring
              · have hsx' : sumIndex
                    { src with
                      slots := setA src.slots itemName (setOpt m fromSlot
                        (some (c - orc k src dst fromSlot (limit - totalMoved)
                          toSlot))),
                      list := setA src.list fromSlot ⟨itemName,
                        some (c - orc k src dst fromSlot (limit - totalMoved)
                          toSlot)⟩ } x = sumIndex src x := by
                  simp only [sumIndex]
                  rw [lookupA_setA_ne _ _ _ _ hx]
                rw [hsx', if_neg hx]
                ring

/-- Claim C1: for distinct handles `S` and `D`, any slot and any limit,
`S.pushItems(D, fromSlot, limit)` conserves, for every item name `x`,
the sum of the counts recorded for `x` in `S`'s and `D`'s slot indices
— assuming each external transfer call reports the amount it actually
moved (the oracle's answer is folded into both caches symmetrically).
The hypothesis `consistB` is the class's own maintained invariant that
the slot-list count at `fromSlot` matches the slot index. -/
theorem pushItems_conserves (orc : Oracle) (fuel : Nat)
    (src dst : Inventory) (fromSlot : Nat) (limitArg : Option Int)
    (out : PushOut) (hcons : consistB src fromSlot = true)
    (hok : pushItems orc fuel src dst fromSlot limitArg = .ok out) :
    ∀ x, sumIndex out.src x + sumIndex out.dst x =
      sumIndex src x + sumIndex dst x := by
  intro x
  rw [pushItems] at hok
  split at hok
  · injection hok with hout
    subst hout
    rfl
  · cases hd : lookupA src.list fromSlot with
    | none => rw [hd] at hok; exact PRes.noConfusion hok
    | some d =>
      rw [hd] at hok
      dsimp only at hok
      refine pushLoop_conserves orc d.name fromSlot _ fuel 0 0 [.start]
        src dst [] out ?_ hok x
      intro c hc m hm
      rw [hd] at hc
      simp only [Option.bind] at hc
      unfold consistB at hcons
      rw [hd] at hcons
      dsimp only at hcons
      rw [hc] at hcons
      dsimp only at hcons
      rw [hm] at hcons
      dsimp only at hcons
      by_cases hlm : lookupA m fromSlot = some c
      · exact hlm
      · rw [if_neg hlm] at hcons
        simp at hcons

/-- Witness for C1: a concrete push of 5 "x" between two Storage handles
conserves the combined indexed total of "x". -/
theorem pushItems_conserves_witness :
    consistB srcSlotTwoAbsent 1 = true ∧
    sumIndex (Inventory.mk "s" StorageType.Storage 2 64 [("x", [])]
        [(1, ⟨"x", none⟩)]) "x" +
      sumIndex (Inventory.mk "d" StorageType.Storage 2 64 [("x", [(1, 5)])]
        [(1, ⟨"x", some 5⟩)]) "x" =
      sumIndex srcSlotTwoAbsent "x" + sumIndex dstPlain "x" :=
  ⟨by decide,
    pushItems_conserves honestOracle 10 srcSlotTwoAbsent dstPlain 1 none
      ⟨some 5,
        Inventory.mk "s" StorageType.Storage 2 64 [("x", [])]
          [(1, ⟨"x", none⟩)],
        Inventory.mk "d" StorageType.Storage 2 64 [("x", [(1, 5)])]
          [(1, ⟨"x", some 5⟩)], [(1, 5, 1)], false⟩
      (by decide) (by decide) "x"⟩
/-! ## Key-set lemmas for the lockstep invariant -/

/-- The key list of an association list. -/
def keysOf {α β : Type} (l : List (α × β)) : List α := l.map Prod.fst

theorem mem_of_lookupA {α β : Type} [DecidableEq α]
    {l : List (α × β)} {k : α} {v : β} (h : lookupA l k = some v) :
    (k, v) ∈ l := by
  induction l with
  | nil => simp [lookupA] at h
  | cons p t ih =>
    obtain ⟨pk, pv⟩ := p
    simp only [lookupA] at h
    by_cases hp : pk = k
    · rw [if_pos hp] at h
      injection h with h
      subst h
      subst hp
      exact List.mem_cons_self _ _
    · rw [if_neg hp] at h
      exact List.mem_cons_of_mem _ (ih h)

theorem mem_keysOf_of_lookupA {α β : Type} [DecidableEq α]
    {l : List (α × β)} {k : α} {v : β} (h : lookupA l k = some v) :
    k ∈ keysOf l := by
  have := mem_of_lookupA h
  exact List.mem_map_of_mem Prod.fst this

theorem lookupA_eq_none_of_not_mem {α β : Type} [DecidableEq α]
    {l : List (α × β)} {k : α} (h : k ∉ keysOf l) : lookupA l k = none := by
  induction l with
  | nil => rfl
  | cons p t ih =>
    obtain ⟨pk, pv⟩ := p
    simp only [keysOf, List.map_cons, List.mem_cons, not_or] at h
    obtain ⟨h1, h2⟩ := h
    simp only [lookupA]
    rw [if_neg (fun hp => h1 hp.symm)]
    exact ih h2

theorem lookupA_of_mem_nodup {α β : Type} [DecidableEq α]
    {l : List (α × β)} {k : α} {v : β} (hnd : (keysOf l).Nodup)
    (h : (k, v) ∈ l) : lookupA l k = some v := by
  induction l with
  | nil => cases h
  | cons p t ih =>
    obtain ⟨pk, pv⟩ := p
    simp only [keysOf, List.map_cons, List.nodup_cons] at hnd
    obtain ⟨hk, hnd⟩ := hnd
    rcases List.mem_cons.mp h with h1 | h2
    · injection h1 with ha hb
      simp only [lookupA]
      rw [if_pos ha.symm]
      rw [hb]
    · simp only [lookupA]
      by_cases hp : pk = k
      · exfalso
        subst hp
        exact hk (List.mem_map_of_mem Prod.fst h2)
      · rw [if_neg hp]
        exact ih hnd h2

theorem eraseA_sublist {α β : Type} [DecidableEq α]
    (l : List (α × β)) (k : α) : (eraseA l k).Sublist l := by
  induction l with
  | nil => simp [eraseA]
  | cons p t ih =>
    obtain ⟨pk, pv⟩ := p
    by_cases hp : pk = k
    · simp only [eraseA, if_pos hp]
      exact List.sublist_cons_self _ _
    · simp only [eraseA, if_neg hp]
      exact ih.cons₂ _

theorem keysOf_eraseA_nodup {α β : Type} [DecidableEq α]
    {l : List (α × β)} (k : α) (hnd : (keysOf l).Nodup) :
    (keysOf (eraseA l k)).Nodup :=
  ((eraseA_sublist l k).map Prod.fst).nodup hnd

theorem lookupA_eraseA_self {α β : Type} [DecidableEq α]
    {l : List (α × β)} {k : α} (hnd : (keysOf l).Nodup) :
    lookupA (eraseA l k) k = none := by
  induction l with
  | nil => rfl
  | cons p t ih =>
    obtain ⟨pk, pv⟩ := p
    simp only [keysOf, List.map_cons, List.nodup_cons] at hnd
    obtain ⟨hk, hnd⟩ := hnd
    by_cases hp : pk = k
    · simp only [eraseA, if_pos hp]
      subst hp
      exact lookupA_eq_none_of_not_mem hk
    · simp only [eraseA, if_neg hp, lookupA]
      exact ih hnd

theorem lookupA_eraseA_ne {α β : Type} [DecidableEq α]
    (l : List (α × β)) (k k' : α) (h : k' ≠ k) :
    lookupA (eraseA l k) k' = lookupA l k' := by
  induction l with
  | nil => rfl
  | cons p t ih =>
    obtain ⟨pk, pv⟩ := p
    by_cases hp : pk = k
    · simp only [eraseA, if_pos hp, lookupA]
      rw [if_neg (fun hh : pk = k' => h (hp ▸ hh ▸ rfl))]
    · simp only [eraseA, if_neg hp, lookupA]
      by_cases hp' : pk = k' <;> simp [hp', ih]

theorem mem_setA {α β : Type} [DecidableEq α]
    {l : List (α × β)} {k : α} {v : β} {p : α × β} (h : p ∈ setA l k v) :
    p ∈ l ∨ p = (k, v) := by
  induction l with
  | nil =>
    simp only [setA, List.mem_singleton] at h
    exact Or.inr h
  | cons q t ih =>
    obtain ⟨qk, qv⟩ := q
    by_cases hq : qk = k
    · simp only [setA, if_pos hq, List.mem_cons] at h
      rcases h with h | h
      · exact Or.inr h
      · exact Or.inl (List.mem_cons_of_mem _ h)
    · simp only [setA, if_neg hq, List.mem_cons] at h
      rcases h with h | h
      · exact Or.inl (List.mem_cons.mpr (Or.inl h))
      · rcases ih h with h' | h'
        · exact Or.inl (List.mem_cons_of_mem _ h')
        · exact Or.inr h'

theorem mem_keysOf_setA {α β : Type} [DecidableEq α]
    {l : List (α × β)} {k a : α} {v : β} (h : a ∈ keysOf (setA l k v)) :
    a ∈ keysOf l ∨ a = k := by
  simp only [keysOf, List.mem_map] at h
  obtain ⟨p, hp, hfst⟩ := h
  rcases mem_setA hp with h' | h'
  · exact Or.inl (hfst ▸ List.mem_map_of_mem Prod.fst h')
  · subst h'
    exact Or.inr hfst.symm

theorem keysOf_setA_nodup {α β : Type} [DecidableEq α]
    {l : List (α × β)} (k : α) (v : β) (hnd : (keysOf l).Nodup) :
    (keysOf (setA l k v)).Nodup := by
  induction l with
  | nil => simp [setA, keysOf]
  | cons p t ih =>
    obtain ⟨pk, pv⟩ := p
    simp only [keysOf, List.map_cons, List.nodup_cons] at hnd
    obtain ⟨hk, hnd⟩ := hnd
    by_cases hp : pk = k
    · simp only [setA, if_pos hp, keysOf, List.map_cons, List.nodup_cons]
      exact ⟨hp ▸ hk, hnd⟩
    · simp only [setA, if_neg hp, keysOf, List.map_cons, List.nodup_cons]
      refine ⟨fun hmem => ?_, ih hnd⟩
      rcases mem_keysOf_setA hmem with h' | h'
      · exact hk h'
      · exact hp h'

/-!
## The lockstep invariant (claim C4)

`agree` is the claimed correspondence between the two cached structures,
restricted to entries that carry a count (the form the code actually
maintains): the index records count `c` for item `n` at slot `s` exactly
when the slot list holds an entry for `s` with name `n` and count `c`.
-/

/-- The slot index records count `c` for item `n` at slot `s`. -/
def indexHas (inv : Inventory) (n : String) (s : Nat) (c : Int) : Prop :=
  ∃ m, lookupA inv.slots n = some m ∧ lookupA m s = some c

/-- The slot list holds, at `s`, an entry named `n` carrying count `c`. -/
def listHas (inv : Inventory) (s : Nat) (n : String) (c : Int) : Prop :=
  ∃ d, lookupA inv.list s = some d ∧ d.name = n ∧ d.count = some c

/-- The two derived structures agree on every counted entry. -/
def agree (inv : Inventory) : Prop :=
  ∀ s n c, indexHas inv n s c ↔ listHas inv s n c

/-- Well-formedness of the Lua-table embedding: association lists never
carry duplicate keys (true of every real `LuaMap` / Lua table). -/
def wfInv (inv : Inventory) : Prop :=
  (keysOf inv.slots).Nodup ∧ (∀ p ∈ inv.slots, (keysOf p.2).Nodup) ∧
    (keysOf inv.list).Nodup

/-! ### syncData establishes the invariant -/

theorem lookupA_map_detail (raw : List (Nat × String × Int)) (s : Nat) :
    lookupA (raw.map (fun r => (r.1, (⟨r.2.1, some r.2.2⟩ : SlotDetail)))) s =
      (lookupA raw s).map (fun v => (⟨v.1, some v.2⟩ : SlotDetail)) := by
  induction raw with
  | nil => rfl
  | cons r t ih =>
    obtain ⟨rs, rn, rc⟩ := r
    simp only [List.map_cons, lookupA]
    by_cases hs : rs = s
    · rw [if_pos hs, if_pos hs]
      rfl
    · rw [if_neg hs, if_neg hs]
      exact ih

/-- Characterization of the index built by `syncData`'s loop. -/
theorem syncData_index_mem :
    ∀ (raw : List (Nat × String × Int))
      (acc : List (String × List (Nat × Int))),
      (keysOf raw).Nodup →
      (∀ s n m, lookupA acc n = some m → (lookupA m s).isSome →
        s ∉ keysOf raw) →
      ∀ n s c,
        (∃ m, lookupA (raw.foldl (fun acc r =>
            setA acc r.2.1 (setA ((lookupA acc r.2.1).getD []) r.1 r.2.2))
            acc) n = some m ∧ lookupA m s = some c) ↔
        ((∃ m, lookupA acc n = some m ∧ lookupA m s = some c) ∨
          lookupA raw s = some (n, c)) := by
  intro raw
  induction raw with
  | nil =>
    intro acc _ _ n s c
    simp [lookupA]
  | cons r t ih =>
    intro acc hnd hfresh n s c
    obtain ⟨s0, n0, c0⟩ := r
    simp only [keysOf, List.map_cons, List.nodup_cons] at hnd
    obtain ⟨hs0, hndt⟩ := hnd
    simp only [List.foldl_cons]
    -- the freshness hypothesis transfers to the updated accumulator
    have hfresh' : ∀ s' n' m', lookupA
        (setA acc n0 (setA ((lookupA acc n0).getD []) s0 c0)) n' = some m' →
        (lookupA m' s').isSome → s' ∉ keysOf t := by
      intro s' n' m' hm' hsome
      by_cases hn' : n' = n0
      · subst hn'
        rw [lookupA_setA_self] at hm'
        injection hm' with hm'
        subst hm'
        by_cases hss : s' = s0
        · subst hss
          exact hs0
        · rw [lookupA_setA_ne _ _ _ _ hss] at hsome
          cases hacc : lookupA acc n' with
          | none =>
            rw [hacc] at hsome
            simp [lookupA] at hsome
          | some m0 =>
            rw [hacc] at hsome
            intro hmem
            exact hfresh s' n' m0 hacc hsome (List.mem_cons_of_mem _ hmem)
      · rw [lookupA_setA_ne _ _ _ _ hn'] at hm'
        intro hmem
        exact hfresh s' n' m' hm' hsome (List.mem_cons_of_mem _ hmem)
    rw [ih _ hndt hfresh' n s c]
    -- now relate the one-step accumulator to the head binding
    have hstep : (∃ m, lookupA
        (setA acc n0 (setA ((lookupA acc n0).getD []) s0 c0)) n = some m ∧
        lookupA m s = some c) ↔
        ((∃ m, lookupA acc n = some m ∧ lookupA m s = some c) ∨
          (s = s0 ∧ n = n0 ∧ c = c0)) := by
      by_cases hn : n = n0
      · subst hn
        constructor
        · rintro ⟨m, hm, hc⟩
          rw [lookupA_setA_self] at hm
          injection hm with hm
          subst hm
          by_cases hss : s = s0
          · subst hss
            rw [lookupA_setA_self] at hc
            injection hc with hc
            exact Or.inr ⟨rfl, rfl, hc.symm⟩
          · rw [lookupA_setA_ne _ _ _ _ hss] at hc
            cases hacc : lookupA acc n with
            | none =>
              rw [hacc] at hc
              simp [lookupA] at hc
            | some m0 =>
              rw [hacc] at hc
              exact Or.inl ⟨m0, rfl, hc⟩
        · rintro (⟨m, hm, hc⟩ | ⟨hss, -, hcc⟩)
          · refine ⟨setA ((lookupA acc n).getD []) s0 c0, lookupA_setA_self
              _ _ _, ?_⟩
            have hss : s ≠ s0 := by
              intro hss
              subst hss
              exact hfresh s n m hm (by rw [hc]; rfl)
                (List.mem_cons_self _ _)
            rw [lookupA_setA_ne _ _ _ _ hss, hm]
            exact hc
          · subst hss
            subst hcc
            exact ⟨setA ((lookupA acc n).getD []) s c, lookupA_setA_self _ _ _,
              lookupA_setA_self _ _ _⟩
      · constructor
        · rintro ⟨m, hm, hc⟩
          rw [lookupA_setA_ne _ _ _ _ hn] at hm
          exact Or.inl ⟨m, hm, hc⟩
        · rintro (⟨m, hm, hc⟩ | ⟨-, hnn, -⟩)
          · refine ⟨m, ?_, hc⟩
            rw [lookupA_setA_ne _ _ _ _ hn]
            exact hm
          · exact absurd hnn hn
    rw [hstep]
    simp only [lookupA]
    by_cases hss : s0 = s
    · subst hss
      rw [if_pos rfl]
      have ht : lookupA t s0 = none :=
        lookupA_eq_none_of_not_mem (by simpa [keysOf] using hs0)
      rw [ht]
      constructor
      · rintro ((h | h) | h)
        · exact Or.inl h
        · obtain ⟨-, hn, hc⟩ := h
          exact Or.inr (by rw [hn, hc])
        · cases h
      · rintro (h | h)
        · exact Or.inl (Or.inl h)
        · injection h with h
          exact Or.inl (Or.inr ⟨rfl, (congrArg Prod.fst h).symm,
            (congrArg Prod.snd h).symm⟩)
    · rw [if_neg hss]
      constructor
      · rintro ((h | h) | h)
        · exact Or.inl h
        · exact absurd h.1.symm hss
        · exact Or.inr h
      · rintro (h | h)
        · exact Or.inl (Or.inl h)
        · exact Or.inr h

/-- `syncData` establishes `agree` from any peripheral listing without
duplicate slot keys. -/
theorem agree_syncData (inv : Inventory) (raw : List (Nat × String × Int))
    (hnd : (keysOf raw).Nodup) : agree (syncData inv raw) := by
  intro s n c
  have hidx := syncData_index_mem raw [] hnd
    (by intro s' n' m' hm' _; simp [lookupA] at hm') n s c
  have hslots : (syncData inv raw).slots = raw.foldl (fun acc r =>
      setA acc r.2.1 (setA ((lookupA acc r.2.1).getD []) r.1 r.2.2)) [] := rfl
  have hlist : (syncData inv raw).list =
      raw.map (fun r => (r.1, (⟨r.2.1, some r.2.2⟩ : SlotDetail))) := rfl
  unfold indexHas listHas
  rw [hslots, hlist, hidx, lookupA_map_detail]
  constructor
  · rintro (⟨m, hm, -⟩ | hr)
    · simp [lookupA] at hm
    · rw [hr]
      exact ⟨⟨n, some c⟩, rfl, rfl, rfl⟩
  · rintro ⟨d, hd, hdn, hdc⟩
    cases hr : lookupA raw s with
    | none =>
      rw [hr] at hd
      cases hd
    | some v =>
      obtain ⟨vn, vc⟩ := v
      rw [hr] at hd
      simp only [Option.map_some'] at hd
      injection hd with hd
      subst hd
      simp only at hdn hdc
      injection hdc with hdc
      refine Or.inr ?_
      rw [hdn, hdc]

/-! ### receiveItems preserves the invariant -/

theorem receiveItems_list (inv : Inventory) (n : String) (s : Nat) (a : Int) :
    (receiveItems inv n s a).list =
      match lookupA inv.list s with
      | none => setA inv.list s ⟨n, some a⟩
      | some d => setA inv.list s ⟨d.name,
          some ((lookupA ((lookupA inv.slots n).getD []) s).getD 0 + a)⟩ := rfl

theorem lookupA_getD_indexHas (inv : Inventory) (n : String) (s' : Nat)
    (c' : Int) :
    lookupA ((lookupA inv.slots n).getD []) s' = some c' ↔
      indexHas inv n s' c' := by
  unfold indexHas
  cases hsn : lookupA inv.slots n with
  | none =>
    simp [lookupA]
  | some m0 =>
    simp only [Option.getD_some]
    constructor
    · intro h
      exact ⟨m0, rfl, h⟩
    · rintro ⟨m, hm, hc⟩
      injection hm with hm
      subst hm
      exact hc

/-- Under `agree` and a matching-name precondition, the `_list` update of
`receiveItems` always stores the entry's (= given) name with the same
total the index receives. -/
theorem receiveItems_list_unified (inv : Inventory) (n : String) (s : Nat)
    (a : Int) (hag : agree inv)
    (hname : ∀ d, lookupA inv.list s = some d → d.name = n) :
    (receiveItems inv n s a).list = setA inv.list s
      ⟨n, some ((lookupA ((lookupA inv.slots n).getD []) s).getD 0 + a)⟩ := by
  rw [receiveItems_list]
  cases hL : lookupA inv.list s with
  | some d =>
    dsimp only
    rw [hname d hL]
  | none =>
    dsimp only
    have hcurs : lookupA ((lookupA inv.slots n).getD []) s = none := by
      cases hsn : lookupA inv.slots n with
      | none => rfl
      | some m =>
        simp only [Option.getD_some]
        cases hms : lookupA m s with
        | none => rfl
        | some c0 =>
          exfalso
          obtain ⟨d, hd, -, -⟩ := (hag s n c0).mp ⟨m, hsn, hms⟩
          rw [hL] at hd
          cases hd
    rw [hcurs]
    simp only [Option.getD_none, zero_add]

/-- Claim C4, `receiveItems` part: local receipt bookkeeping preserves
the lockstep correspondence, provided the call does not contradict the
existing content of the slot (the spec's stated caller obligation). -/
theorem agree_receiveItems (inv : Inventory) (n : String) (s : Nat) (a : Int)
    (hag : agree inv)
    (hname : ∀ d, lookupA inv.list s = some d → d.name = n) :
    agree (receiveItems inv n s a) := by
  have hlist := receiveItems_list_unified inv n s a hag hname
  have hslots := receiveItems_slots inv n s a
  intro s' n' c'
  unfold indexHas listHas
  rw [hslots, hlist]
  by_cases hs' : s' = s
  · subst hs'
    rw [lookupA_setA_self]
    by_cases hn' : n' = n
    · subst hn'
      rw [lookupA_setA_self]
      constructor
      · rintro ⟨m', hm', hc'⟩
        injection hm' with hm'
        subst hm'
        rw [lookupA_setA_self] at hc'
        injection hc' with hc'
        exact ⟨_, rfl, rfl, by rw [hc']⟩
      · rintro ⟨d', hd', hdn', hdc'⟩
        injection hd' with hd'
        subst hd'
        simp only at hdc'
        injection hdc' with hdc'
        exact ⟨_, rfl, by rw [lookupA_setA_self, hdc']⟩
    · rw [lookupA_setA_ne _ _ _ _ hn']
      constructor
      · rintro ⟨m', hm', hc'⟩
        obtain ⟨d, hd, hdn, -⟩ := (hag s' n' c').mp ⟨m', hm', hc'⟩
        exact absurd (hdn.symm.trans (hname d hd)) hn'
      · rintro ⟨d', hd', hdn', hdc'⟩
        injection hd' with hd'
        subst hd'
        simp only at hdn'
        exact absurd hdn'.symm hn'
  · rw [lookupA_setA_ne _ _ _ _ hs']
    by_cases hn' : n' = n
    · subst hn'
      rw [lookupA_setA_self]
      constructor
      · rintro ⟨m', hm', hc'⟩
        injection hm' with hm'
        subst hm'
        rw [lookupA_setA_ne _ _ _ _ hs'] at hc'
        exact (hag s' n' c').mp ((lookupA_getD_indexHas inv n' s' c').mp hc')
      · intro hrhs
        have hidx := (hag s' n' c').mpr hrhs
        have hcur := (lookupA_getD_indexHas inv n' s' c').mpr hidx
        refine ⟨_, rfl, ?_⟩
        rw [lookupA_setA_ne _ _ _ _ hs']
        exact hcur
    · rw [lookupA_setA_ne _ _ _ _ hn']
      exact hag s' n' c'

/-! ### Well-formedness (no duplicate table keys) is preserved -/

theorem wf_receiveItems (inv : Inventory) (n : String) (s : Nat) (a : Int)
    (hwf : wfInv inv) : wfInv (receiveItems inv n s a) := by
  obtain ⟨h1, h2, h3⟩ := hwf
  refine ⟨?_, ?_, ?_⟩
  · rw [receiveItems_slots]
    exact keysOf_setA_nodup _ _ h1
  · rw [receiveItems_slots]
    intro p hp
    rcases mem_setA hp with hmem | heq
    · exact h2 p hmem
    · subst heq
      refine keysOf_setA_nodup _ _ ?_
      cases hsn : lookupA inv.slots n with
      | none => simp [keysOf]
      | some m =>
        simp only [Option.getD_some]
        exact h2 (n, m) (mem_of_lookupA hsn)
  · rw [receiveItems_list]
    cases hL : lookupA inv.list s with
    | none =>
      dsimp only
      exact keysOf_setA_nodup _ _ h3
    | some d =>
      dsimp only
      exact keysOf_setA_nodup _ _ h3

theorem wf_srcUpdate (src : Inventory) (itemName : String) (fromSlot : Nat)
    (m : List (Nat × Int)) (nsc : Option Int) (d : SlotDetail)
    (hwf : wfInv src) (hm : lookupA src.slots itemName = some m) :
    wfInv { src with
      slots := setA src.slots itemName (setOpt m fromSlot nsc),
      list := setA src.list fromSlot d } := by
  obtain ⟨h1, h2, h3⟩ := hwf
  refine ⟨keysOf_setA_nodup _ _ h1, ?_, keysOf_setA_nodup _ _ h3⟩
  intro p hp
  rcases mem_setA hp with hmem | heq
  · exact h2 p hmem
  · subst heq
    have hmnd : (keysOf m).Nodup := h2 (itemName, m) (mem_of_lookupA hm)
    cases nsc with
    | some v => exact keysOf_setA_nodup _ _ hmnd
    | none => exact keysOf_eraseA_nodup _ hmnd

/-!
### Safety of the slots the generator yields

A `p1` frame holds a (possibly stale) snapshot of the destination's
per-item slot map; during one `pushItems` call the destination only ever
gains counts under the pushed item's name, so every snapshot entry stays
present in the live index.  `genSafe` captures exactly that, and is what
guarantees each yielded slot either belongs to the item's index (hence,
by `agree`, holds the right item) or is empty in the slot list. -/
def genSafe (dst : Inventory) (n : String) (gen : List GFrame) : Prop :=
  ∀ rem, GFrame.p1 rem ∈ gen → ∀ p ∈ rem,
    ∃ m, lookupA dst.slots n = some m ∧ (lookupA m p.1).isSome

theorem genSafe_start (dst : Inventory) (n : String) :
    genSafe dst n [.start] := by
  intro rem hmem p hp
  rw [List.mem_singleton] at hmem
  cases hmem

theorem genStep_safe (dst : Inventory) (n : String) :
    ∀ (st st' : List GFrame) (y : Option Nat), wfInv dst → genSafe dst n st →
    genStep dst n st = some (y, st') →
    genSafe dst n st' ∧ ∀ s, y = some s →
      ((∃ m, lookupA dst.slots n = some m ∧ (lookupA m s).isSome) ∨
        lookupA dst.list s = none) := by
  intro st st' y hwf hsafe h
  cases st with
  | nil => cases h
  | cons fr rest =>
    have hrest : genSafe dst n rest := by
      intro rem hmem p hp
      exact hsafe rem (List.mem_cons_of_mem _ hmem) p hp
    cases fr with
    | start =>
      simp only [genStep] at h
      injection h with h
      injection h with hy hst
      subst hy
      subst hst
      refine ⟨?_, by intro s hs; cases hs⟩
      intro rem hmem p hp
      rcases List.mem_cons.mp hmem with hh | hh
      · injection hh with hh
        subst hh
        cases hsn : lookupA dst.slots n with
        | none =>
          rw [hsn] at hp
          cases hp
        | some m =>
          rw [hsn] at hp
          simp only [Option.getD_some] at hp
          refine ⟨m, rfl, ?_⟩
          obtain ⟨pk, pv⟩ := p
          rw [lookupA_of_mem_nodup (hwf.2.1 (n, m) (mem_of_lookupA hsn)) hp]
          rfl
      · exact hrest rem hh p hp
    | p1 rem0 =>
      cases rem0 with
      | nil =>
        simp only [genStep] at h
        injection h with h
        injection h with hy hst
        subst hy
        subst hst
        refine ⟨?_, by intro s hs; cases hs⟩
        intro rem hmem p hp
        rcases List.mem_cons.mp hmem with hh | hh
        · cases hh
        · exact hrest rem hh p hp
      | cons q rem1 =>
        obtain ⟨qs, qc⟩ := q
        have hsafe1 : genSafe dst n (GFrame.p1 rem1 :: rest) := by
          intro rem hmem p hp
          rcases List.mem_cons.mp hmem with hh | hh
          · injection hh with hh
            subst hh
            exact hsafe ((qs, qc) :: rem) (List.mem_cons_self _ _) p
              (List.mem_cons_of_mem _ hp)
          · exact hrest rem hh p hp
        simp only [genStep] at h
        by_cases hlt : qc < dst.itemLimit
        · rw [if_pos hlt] at h
          injection h with h
          injection h with hy hst
          subst hst
          refine ⟨hsafe1, ?_⟩
          intro s hs
          rw [← hy] at hs
          injection hs with hs
          subst hs
          exact Or.inl (hsafe ((qs, qc) :: rem1) (List.mem_cons_self _ _)
            (qs, qc) (List.mem_cons_self _ _))
        · rw [if_neg hlt] at h
          injection h with h
          injection h with hy hst
          subst hy
          subst hst
          exact ⟨hsafe1, by intro s hs; cases hs⟩
    | p2 i =>
      simp only [genStep] at h
      by_cases hsz : dst.size < i
      · rw [if_pos hsz] at h
        injection h with h
        injection h with hy hst
        subst hy
        subst hst
        exact ⟨hrest, by intro s hs; cases hs⟩
      · rw [if_neg hsz] at h
        by_cases hempty : lookupA dst.list i = none
        · rw [if_pos hempty] at h
          injection h with h
          injection h with hy hst
          subst hst
          refine ⟨?_, ?_⟩
          · intro rem hmem p hp
            rcases List.mem_cons.mp hmem with hh | hh
            · cases hh
            · rcases List.mem_cons.mp hh with hh' | hh'
              · cases hh'
              · exact hrest rem hh' p hp
          · intro s hs
            rw [← hy] at hs
            injection hs with hs
            subst hs
            exact Or.inr hempty
        · rw [if_neg hempty] at h
          injection h with h
          injection h with hy hst
          subst hy
          subst hst
          refine ⟨?_, by intro s hs; cases hs⟩
          intro rem hmem p hp
          rcases List.mem_cons.mp hmem with hh | hh
          · cases hh
          · exact hrest rem hh p hp

theorem nextYield_safe (dst : Inventory) (n : String) :
    ∀ (fuel : Nat) (gen : List GFrame) (y : Option Nat) (gen' : List GFrame),
    wfInv dst → genSafe dst n gen →
    nextYield dst n fuel gen = some (y, gen') →
    genSafe dst n gen' ∧ ∀ s, y = some s →
      ((∃ m, lookupA dst.slots n = some m ∧ (lookupA m s).isSome) ∨
        lookupA dst.list s = none) := by
  intro fuel
  induction fuel with
  | zero =>
    intro gen y gen' _ _ h
    cases h
  | succ f ih =>
    intro gen y gen' hwf hsafe h
    simp only [nextYield] at h
    cases hstep : genStep dst n gen with
    | none =>
      rw [hstep] at h
      injection h with h
      injection h with hy hgen
      subst hy
      subst hgen
      exact ⟨hsafe, by intro s hs; cases hs⟩
    | some r =>
      obtain ⟨y0, st'⟩ := r
      rw [hstep] at h
      cases y0 with
      | none =>
        have hss := genStep_safe dst n gen st' none hwf hsafe hstep
        exact ih st' y gen' hwf hss.1 h
      | some s0 =>
        dsimp only at h
        injection h with h
        injection h with hy hst
        subst hst
        subst hy
        have hss := genStep_safe dst n gen st' (some s0) hwf hsafe hstep
        exact ⟨hss.1, hss.2⟩

theorem genSafe_receiveItems (dst : Inventory) (n : String) (t : Nat)
    (a : Int) (gen : List GFrame) (hsafe : genSafe dst n gen) :
    genSafe (receiveItems dst n t a) n gen := by
  intro rem hmem p hp
  obtain ⟨m, hm, hsome⟩ := hsafe rem hmem p hp
  refine ⟨setA ((lookupA dst.slots n).getD []) t
    ((lookupA ((lookupA dst.slots n).getD []) t).getD 0 + a), ?_, ?_⟩
  · rw [receiveItems_slots, lookupA_setA_self]
  · rw [hm]
    simp only [Option.getD_some]
    by_cases hpt : p.1 = t
    · rw [hpt, lookupA_setA_self]
      rfl
    · rw [lookupA_setA_ne _ _ _ _ hpt]
      exact hsome

/-! ### The per-iteration source update preserves the invariant -/

theorem agree_srcUpdate (src : Inventory) (itemName : String) (fromSlot : Nat)
    (m : List (Nat × Int)) (nsc : Option Int) (hag : agree src)
    (hwf : wfInv src) (hm : lookupA src.slots itemName = some m)
    (d0 : SlotDetail) (hd0 : lookupA src.list fromSlot = some d0)
    (hd0n : d0.name = itemName) :
    agree { src with
      slots := setA src.slots itemName (setOpt m fromSlot nsc),
      list := setA src.list fromSlot ⟨itemName, nsc⟩ } := by
  have hmnd : (keysOf m).Nodup := hwf.2.1 (itemName, m) (mem_of_lookupA hm)
  intro s' n' c'
  unfold indexHas listHas
  dsimp only
  by_cases hs' : s' = fromSlot
  · subst hs'
    rw [lookupA_setA_self]
    by_cases hn' : n' = itemName
    · subst hn'
      rw [lookupA_setA_self]
      constructor
      · rintro ⟨m', hm', hc'⟩
        injection hm' with hm'
        subst hm'
        cases nsc with
        | some v =>
          simp only [setOpt] at hc'
          rw [lookupA_setA_self] at hc'
          exact ⟨_, rfl, rfl, hc'⟩
        | none =>
          simp only [setOpt] at hc'
          rw [lookupA_eraseA_self hmnd] at hc'
          cases hc'
      · rintro ⟨d', hd', hdn', hdc'⟩
        injection hd' with hd'
        subst hd'
        simp only at hdc'
        subst hdc'
        refine ⟨_, rfl, ?_⟩
        simp only [setOpt]
        rw [lookupA_setA_self]
    · rw [lookupA_setA_ne _ _ _ _ hn']
      constructor
      · rintro ⟨m', hm', hc'⟩
        obtain ⟨d, hd, hdn, -⟩ := (hag s' n' c').mp ⟨m', hm', hc'⟩
        rw [hd0] at hd
        injection hd with hd
        subst hd
        exact absurd (hdn.symm.trans hd0n) hn'
      · rintro ⟨d', hd', hdn', -⟩
        injection hd' with hd'
        subst hd'
        simp only at hdn'
        exact absurd hdn'.symm hn'
  · rw [lookupA_setA_ne _ _ _ _ hs']
    by_cases hn' : n' = itemName
    · subst hn'
      rw [lookupA_setA_self]
      constructor
      · rintro ⟨m', hm', hc'⟩
        injection hm' with hm'
        subst hm'
        have hl : lookupA m s' = some c' := by
          cases nsc with
          | some v =>
            simp only [setOpt] at hc'
            rwa [lookupA_setA_ne _ _ _ _ hs'] at hc'
          | none =>
            simp only [setOpt] at hc'
            rwa [lookupA_eraseA_ne _ _ _ hs'] at hc'
        exact (hag s' n' c').mp ⟨m, hm, hl⟩
      · intro hrhs
        obtain ⟨m', hm', hc'⟩ := (hag s' n' c').mpr hrhs
        rw [hm] at hm'
        injection hm' with hm'
        subst hm'
        refine ⟨_, rfl, ?_⟩
        cases nsc with
        | some v =>
          simp only [setOpt]
          rw [lookupA_setA_ne _ _ _ _ hs']
          exact hc'
        | none =>
          simp only [setOpt]
          rw [lookupA_eraseA_ne _ _ _ hs']
          exact hc'
    · rw [lookupA_setA_ne _ _ _ _ hn']
      exact hag s' n' c'

theorem pushLoop_agree (orc : Oracle) (itemName : String) (fromSlot : Nat)
    (limit : Int) :
    ∀ (fuel : Nat) (totalMoved : Int) (k : Nat) (gen : List GFrame)
      (src dst : Inventory) (calls : List (Nat × Int × Nat)) (out : PushOut),
      wfInv src → wfInv dst → agree src → agree dst →
      genSafe dst itemName gen →
      (∃ d0, lookupA src.list fromSlot = some d0 ∧ d0.name = itemName) →
      pushLoop orc itemName fromSlot limit fuel totalMoved k gen src dst calls
        = .ok out →
      agree out.src ∧ agree out.dst ∧
        ∃ d1, lookupA out.src.list fromSlot = some d1 ∧ d1.name = itemName := by
  intro fuel
  induction fuel with
  | zero =>
    intro tm k gen src dst calls out hwfs hwfd hags hagd hgsafe hentry hok
    simp only [pushLoop] at hok
    split at hok
    · exact PRes.noConfusion hok
    · injection hok with hout
      subst hout
      exact ⟨hags, hagd, hentry⟩
  | succ f ih =>
    intro tm k gen src dst calls out hwfs hwfd hags hagd hgsafe hentry hok
    simp only [pushLoop] at hok
    split at hok
    case isFalse =>
      injection hok with hout
      subst hout
      exact ⟨hags, hagd, hentry⟩
    case isTrue hguard =>
      obtain ⟨-, hcnt⟩ := hguard
      obtain ⟨c, hc⟩ := Option.ne_none_iff_exists'.mp hcnt
      rw [hc] at hok
      simp only [Option.getD_some] at hok
      cases hyld : nextYield dst itemName (f + 1) gen with
      | none => rw [hyld] at hok; exact PRes.noConfusion hok
      | some r =>
        obtain ⟨y, gen'⟩ := r
        cases y with
        | none =>
          rw [hyld] at hok
          dsimp only at hok
          injection hok with hout
          subst hout
          exact ⟨hags, hagd, hentry⟩
        | some toSlot =>
          rw [hyld] at hok
          dsimp only at hok
          cases hm : lookupA src.slots itemName with
          | none => rw [hm] at hok; exact PRes.noConfusion hok
          | some m =>
            rw [hm] at hok
            dsimp only at hok
            obtain ⟨d0, hd0, hd0n⟩ := hentry
            have hny := nextYield_safe dst itemName (f + 1) gen (some toSlot)
              gen' hwfd hgsafe hyld
            have hnameOK : ∀ d, lookupA dst.list toSlot = some d →
                d.name = itemName := by
              intro d hd
              rcases hny.2 toSlot rfl with ⟨m2, hm2, hsome2⟩ | hempty
              · cases hv : lookupA m2 toSlot with
                | none =>
                  rw [hv] at hsome2
                  cases hsome2
                | some c2 =>
                  obtain ⟨d2, hd2, hd2n, -⟩ :=
                    (hagd toSlot itemName c2).mp ⟨m2, hm2, hv⟩
                  rw [hd] at hd2
                  injection hd2 with hd2
                  subst hd2
                  exact hd2n
              · rw [hempty] at hd
                cases hd
            by_cases hca : c = orc k src dst fromSlot (limit - tm) toSlot
            · rw [if_neg (fun hne => hne hca)] at hok
              exact ih _ _ _ _ _ _ _
                (wf_srcUpdate src itemName fromSlot m none ⟨itemName, none⟩
                  hwfs hm)
                (wf_receiveItems dst itemName toSlot _ hwfd)
                (agree_srcUpdate src itemName fromSlot m none hags hwfs hm
                  d0 hd0 hd0n)
                (agree_receiveItems dst itemName toSlot _ hagd hnameOK)
                (genSafe_receiveItems dst itemName toSlot _ gen' hny.1)
                ⟨⟨itemName, none⟩, by
                  show lookupA (setA src.list fromSlot ⟨itemName, none⟩)
                    fromSlot = some ⟨itemName, none⟩
                  exact lookupA_setA_self _ _ _, rfl⟩
                hok
            · rw [if_pos hca] at hok
              exact ih _ _ _ _ _ _ _
                (wf_srcUpdate src itemName fromSlot m
                  (some (c - orc k src dst fromSlot (limit - tm) toSlot))
                  ⟨itemName,
                    some (c - orc k src dst fromSlot (limit - tm) toSlot)⟩
                  hwfs hm)
                (wf_receiveItems dst itemName toSlot _ hwfd)
                (agree_srcUpdate src itemName fromSlot m
                  (some (c - orc k src dst fromSlot (limit - tm) toSlot))
                  hags hwfs hm d0 hd0 hd0n)
                (agree_receiveItems dst itemName toSlot _ hagd hnameOK)
                (genSafe_receiveItems dst itemName toSlot _ gen' hny.1)
                ⟨⟨itemName,
                    some (c - orc k src dst fromSlot (limit - tm) toSlot)⟩, by
                  show lookupA (setA src.list fromSlot ⟨itemName,
                      some (c - orc k src dst fromSlot (limit - tm) toSlot)⟩)
                    fromSlot = some ⟨itemName,
                      some (c - orc k src dst fromSlot (limit - tm) toSlot)⟩
                  exact lookupA_setA_self _ _ _, rfl⟩
                hok

theorem pushItems_agree (orc : Oracle) (fuel : Nat) (src dst : Inventory)
    (fromSlot : Nat) (limitArg : Option Int) (out : PushOut)
    (hwfs : wfInv src) (hwfd : wfInv dst) (hags : agree src)
    (hagd : agree dst)
    (hok : pushItems orc fuel src dst fromSlot limitArg = .ok out) :
    agree out.src ∧ agree out.dst ∧
      ∀ d, lookupA src.list fromSlot = some d →
        ∃ d2, lookupA out.src.list fromSlot = some d2 ∧ d2.name = d.name := by
  rw [pushItems] at hok
  split at hok
  · injection hok with hout
    subst hout
    exact ⟨hags, hagd, fun d hd => ⟨d, hd, rfl⟩⟩
  · cases hd : lookupA src.list fromSlot with
    | none => rw [hd] at hok; exact PRes.noConfusion hok
    | some d =>
      rw [hd] at hok
      dsimp only at hok
      have h := pushLoop_agree orc d.name fromSlot _ fuel 0 0 [.start] src dst
        [] out hwfs hwfd hags hagd (genSafe_start dst d.name) ⟨d, hd, rfl⟩ hok
      refine ⟨h.1, h.2.1, ?_⟩
      intro d' hd'
      injection hd' with hd'
      subst hd'
      exact h.2.2

/-- The lockstep claim's "absent from both structures" clause, as
stated: after a `pushItems` whose source slot list had an entry and
whose slot index no longer records the slot (the slot was drained), the
slot list is claimed to have no entry for the slot either. -/
def drainedSlotAbsentClaim : Prop :=
  ∀ (orc : Oracle) (fuel : Nat) (src dst : Inventory) (fromSlot : Nat)
    (lim : Option Int) (out : PushOut) (d : SlotDetail),
    pushItems orc fuel src dst fromSlot lim = .ok out →
    lookupA src.list fromSlot = some d →
    (∀ m, lookupA out.src.slots d.name = some m →
      lookupA m fromSlot = none) →
    lookupA out.src.list fromSlot = none

/-- Counterexample to claim C4 as stated: draining a slot completely
removes it from the slot index but leaves a ghost entry (name kept,
count `nil`) in the slot list, so the two structures are not both
rid of the slot. -/
theorem drainedSlotAbsent_claim_false : ¬ drainedSlotAbsentClaim := by
  intro h
  have hmain := h honestOracle 10 srcSlotTwoAbsent dstPlain 1 none
    ⟨some 5,
      Inventory.mk "s" StorageType.Storage 2 64 [("x", [])]
        [(1, ⟨"x", none⟩)],
      Inventory.mk "d" StorageType.Storage 2 64 [("x", [(1, 5)])]
        [(1, ⟨"x", some 5⟩)], [(1, 5, 1)], false⟩
    ⟨"x", some 5⟩ (by decide) (by decide) ?_
  · exact absurd hmain (by decide)
  · intro m hm
    injection hm with hm
    subst hm
    rfl

/-- The helper inventories for the C4 witness. -/
def invEmptyStorage : Inventory := ⟨"e", .Storage, 1, 64, [], []⟩

/-- An empty Input-role handle. -/
def invEmptyInput : Inventory := ⟨"in", .Input, 1, 64, [], []⟩

theorem agree_invEmptyStorage : agree invEmptyStorage := by
  intro s n c
  constructor
  · rintro ⟨m, hm, -⟩
    exact Option.noConfusion hm
  · rintro ⟨d, hd, -⟩
    exact Option.noConfusion hd

theorem agree_invEmptyInput : agree invEmptyInput := by
  intro s n c
  constructor
  · rintro ⟨m, hm, -⟩
    exact Option.noConfusion hm
  · rintro ⟨d, hd, -⟩
    exact Option.noConfusion hd

theorem wf_invEmptyStorage : wfInv invEmptyStorage :=
  ⟨List.nodup_nil, fun p hp => absurd hp (List.not_mem_nil p),
    List.nodup_nil⟩

theorem wf_invEmptyInput : wfInv invEmptyInput :=
  ⟨List.nodup_nil, fun p hp => absurd hp (List.not_mem_nil p),
    List.nodup_nil⟩

/-- Claim C4 amended: after every mutation (a full `syncData` resync, a
`receiveItems` call that does not contradict the slot's existing
content, or a completed `pushItems`) the two derived structures agree on
every counted entry: the slot index records count `c` for item `n` at
slot `s` iff the slot list holds an entry at `s` named `n` carrying
count `c`.  However — contrary to the original claim's final clause — a
slot drained to zero by `pushItems` is removed only from the slot
index: the slot list keeps an entry for it, holding the item name with
no count (see the counterexample); the entry and its name survive every
completed push. -/
theorem lockstep_amended :
    (∀ (inv : Inventory) (raw : List (Nat × String × Int)),
      (keysOf raw).Nodup → agree (syncData inv raw)) ∧
    (∀ (inv : Inventory) (n : String) (s : Nat) (a : Int), agree inv →
      (∀ d, lookupA inv.list s = some d → d.name = n) →
      agree (receiveItems inv n s a)) ∧
    (∀ (orc : Oracle) (fuel : Nat) (src dst : Inventory) (fromSlot : Nat)
      (limitArg : Option Int) (out : PushOut), wfInv src → wfInv dst →
      agree src → agree dst →
      pushItems orc fuel src dst fromSlot limitArg = .ok out →
      agree out.src ∧ agree out.dst ∧
      ∀ d, lookupA src.list fromSlot = some d →
        ∃ d2, lookupA out.src.list fromSlot = some d2 ∧ d2.name = d.name) :=
  ⟨agree_syncData, agree_receiveItems,
    fun orc fuel src dst fromSlot limitArg out hwfs hwfd hags hagd hok =>
      pushItems_agree orc fuel src dst fromSlot limitArg out hwfs hwfd hags
        hagd hok⟩

/-- Witness for the amended C4, applying all three parts at concrete
handles. -/
theorem lockstep_amended_witness :
    agree (syncData invEmptyStorage [(1, "x", 7)]) ∧
    agree (receiveItems invEmptyStorage "x" 1 3) ∧
    agree invEmptyInput :=
  ⟨lockstep_amended.1 invEmptyStorage [(1, "x", 7)] (by decide),
   lockstep_amended.2.1 invEmptyStorage "x" 1 3 agree_invEmptyStorage
     (fun d hd => Option.noConfusion hd),
   (lockstep_amended.2.2 honestOracle 5 invEmptyInput invEmptyStorage 1 none
     ⟨none, invEmptyInput, invEmptyStorage, [], true⟩ wf_invEmptyInput
     wf_invEmptyStorage agree_invEmptyInput agree_invEmptyStorage rfl).1⟩

/-!
## Claim C6: the yield order of `getNextAvailableSlot`

`genRun` is the generator's trace against an unmutated handle.  The
claim asserts finiteness, all partial slots strictly before any empty
slot, and strictly increasing empty slots; the code instead restarts the
whole search after yielding an empty slot, giving a periodic infinite
trace. -/

/-- Slot `s` currently holds `n` with room left (count below limit). -/
def isPartialSlot (inv : Inventory) (n : String) (s : Nat) : Prop :=
  ∃ c, lookupA ((lookupA inv.slots n).getD []) s = some c ∧ c < inv.itemLimit

/-- Slot `s` is one of the inventory's slots and holds nothing. -/
def isEmptySlot (inv : Inventory) (s : Nat) : Prop :=
  1 ≤ s ∧ s ≤ inv.size ∧ lookupA inv.list s = none

/-- Claim C6 as stated: the yielded sequence is finite, yields every
partially-filled slot strictly before any empty slot, and yields empty
slots in strictly increasing order. -/
def availClaim (inv : Inventory) (n : String) : Prop :=
  (∃ N, ∀ fuel, (genRun inv n fuel [.start]).length ≤ N) ∧
  (∀ fuel i j a b, i ≤ j →
    (genRun inv n fuel [.start]).get? i = some a →
    (genRun inv n fuel [.start]).get? j = some b →
    isEmptySlot inv a → ¬ isPartialSlot inv n b) ∧
  (∀ fuel i j a b, i < j →
    (genRun inv n fuel [.start]).get? i = some a →
    (genRun inv n fuel [.start]).get? j = some b →
    isEmptySlot inv a → isEmptySlot inv b → a < b) ∧
  (∀ s, isPartialSlot inv n s →
    ∃ fuel i, (genRun inv n fuel [.start]).get? i = some s)

/-- Counterexample to claim C6: on a handle with one partial slot (5 of
64 "x" in slot 1) and one empty slot (slot 2), the generator yields
1, 2, 1, 2, 1, … — a partial slot after an empty one (and the same
empty slot repeatedly, without terminating). -/
theorem availableSlots_claim_false : ¬ availClaim srcSlotTwoAbsent "x" := by
  intro h
  exact h.2.1 12 1 2 2 1 (by decide) (by decide) (by decide)
    ⟨by decide, by decide, by decide⟩ ⟨5, by decide, by decide⟩

/-- The slots the `p1` phase yields: partially-filled slots of `n`, in
the index's iteration order. -/
def partialYields (inv : Inventory) (n : String) : List Nat :=
  (((lookupA inv.slots n).getD []).filter
    (fun p => decide (p.2 < inv.itemLimit))).map Prod.fst

/-- The first empty slot found by the `p2` scan over slots `1..size`. -/
def firstEmpty (inv : Inventory) : Option Nat :=
  (List.range' 1 inv.size).find? (fun i => (lookupA inv.list i).isNone)

/-- `k` concatenated copies of a list. -/
def repeatList (l : List Nat) : Nat → List Nat
  | 0 => []
  | k + 1 => l ++ repeatList l k

theorem genRun_nilState (inv : Inventory) (n : String) (f : Nat) :
    genRun inv n f [] = [] := by
  cases f <;> simp [genRun, genStep]

theorem genRun_start (inv : Inventory) (n : String) (f : Nat)
    (rest : List GFrame) :
    genRun inv n (f + 1) (.start :: rest) =
      genRun inv n f (.p1 ((lookupA inv.slots n).getD []) :: rest) := by
  simp [genRun, genStep]

theorem genRun_p1_nil (inv : Inventory) (n : String) (f : Nat)
    (rest : List GFrame) :
    genRun inv n (f + 1) (.p1 [] :: rest) =
      genRun inv n f (.p2 1 :: rest) := by
  simp [genRun, genStep]

theorem genRun_p1 (inv : Inventory) (n : String) :
    ∀ (rem : List (Nat × Int)) (f : Nat) (rest : List GFrame),
      genRun inv n (rem.length + f) (.p1 rem :: rest) =
        (rem.filter (fun p => decide (p.2 < inv.itemLimit))).map Prod.fst ++
          genRun inv n f (.p1 [] :: rest) := by
  intro rem
  induction rem with
  | nil =>
    intro f rest
    simp
  | cons q rem1 ih =>
    intro f rest
    obtain ⟨qs, qc⟩ := q
    have harith : rem1.length + 1 + f = (rem1.length + f) + 1 := by omega
    rw [List.length_cons, harith]
    by_cases hlt : qc < inv.itemLimit
    · simp only [genRun, genStep, if_pos hlt]
      rw [ih f rest]
      simp [hlt]
    · simp only [genRun, genStep, if_neg hlt]
      rw [ih f rest]
      simp [hlt]

theorem genRun_p2_skip (inv : Inventory) (n : String) :
    ∀ (d i f : Nat) (rest : List GFrame),
      (∀ j, i ≤ j → j < i + d → j ≤ inv.size ∧ lookupA inv.list j ≠ none) →
      genRun inv n (d + f) (.p2 i :: rest) =
        genRun inv n f (.p2 (i + d) :: rest) := by
  intro d
  induction d with
  | zero =>
    intro i f rest _
    simp
  | succ d1 ih =>
    intro i f rest hj
    have hi := hj i le_rfl (by omega)
    have harith : d1 + 1 + f = (d1 + f) + 1 := by omega
    rw [harith]
    have hlist : ¬ lookupA inv.list i = none := hi.2
    simp only [genRun, genStep, if_neg (not_lt.mpr hi.1), if_neg hlist]
    rw [ih (i + 1) f rest (fun j h1 h2 => hj j (by omega) (by omega))]
    have : i + 1 + d1 = i + (d1 + 1) := by omega
    rw [this]

theorem genRun_p2_pop (inv : Inventory) (n : String) (i f : Nat)
    (rest : List GFrame) (h : inv.size < i) :
    genRun inv n (f + 1) (.p2 i :: rest) = genRun inv n f rest := by
  simp [genRun, genStep, if_pos h]

theorem genRun_p2_yield (inv : Inventory) (n : String) (e f : Nat)
    (rest : List GFrame) (he : e ≤ inv.size)
    (hempty : lookupA inv.list e = none) :
    genRun inv n (f + 1) (.p2 e :: rest) =
      e :: genRun inv n f (.start :: .p2 (e + 1) :: rest) := by
  simp [genRun, genStep, if_neg (not_lt.mpr he), hempty]

theorem find?_range'_min :
    ∀ (len start e : Nat) (p : Nat → Bool),
      (List.range' start len).find? p = some e →
      ∀ j, start ≤ j → j < e → p j = false := by
  intro len
  induction len with
  | zero =>
    intro start e p h
    simp [List.find?] at h
  | succ len1 ih =>
    intro start e p h j hj1 hj2
    rw [List.range'_succ] at h
    simp only [List.find?] at h
    cases hps : p start with
    | true =>
      rw [hps] at h
      injection h with h
      omega
    | false =>
      rw [hps] at h
      by_cases hjs : j = start
      · rw [hjs]
        exact hps
      · exact ih (start + 1) e p h j (by omega) hj2

/-- One full round of the restarting search when the first empty slot is
`e`: all partial slots, then `e`, then a fresh delegated search. -/
theorem genRun_round (inv : Inventory) (n : String) (e : Nat)
    (he : firstEmpty inv = some e) (rest : List GFrame) (f : Nat) :
    genRun inv n (((lookupA inv.slots n).getD []).length + e + 2 + f)
      (.start :: rest) =
      partialYields inv n ++
        e :: genRun inv n f (.start :: .p2 (e + 1) :: rest) := by
  have hmem := List.mem_range'_1.mp (List.mem_of_find?_eq_some he)
  have hfind := List.find?_some he
  have hempty : lookupA inv.list e = none := by
    cases hv : lookupA inv.list e with
    | none => rfl
    | some d =>
      rw [hv] at hfind
      cases hfind
  have hmin : ∀ j, 1 ≤ j → j < e → lookupA inv.list j ≠ none := by
    intro j h1 h2 hnone
    have := find?_range'_min inv.size 1 e _ he j h1 h2
    rw [hnone] at this
    cases this
  have h1 : ((lookupA inv.slots n).getD []).length + e + 2 + f =
      (((lookupA inv.slots n).getD []).length + e + 1 + f) + 1 := by omega
  rw [h1, genRun_start]
  have h2 : ((lookupA inv.slots n).getD []).length + e + 1 + f =
      ((lookupA inv.slots n).getD []).length + (e + 1 + f) := by omega
  rw [h2, genRun_p1]
  have h3 : e + 1 + f = (e + f) + 1 := by omega
  rw [h3, genRun_p1_nil]
  have h4 : e + f = (e - 1) + (f + 1) := by omega
  rw [h4, genRun_p2_skip inv n (e - 1) 1 (f + 1) rest
    (fun j hj1 hj2 => ⟨by omega, hmin j hj1 (by omega)⟩)]
  have h5 : 1 + (e - 1) = e := by omega
  rw [h5, genRun_p2_yield inv n e f _ (by omega) hempty]
  rfl

theorem genRun_rounds (inv : Inventory) (n : String) (e : Nat)
    (he : firstEmpty inv = some e) :
    ∀ (k : Nat) (rest : List GFrame),
      genRun inv n (k * (((lookupA inv.slots n).getD []).length + e + 2))
        (.start :: rest) =
        repeatList (partialYields inv n ++ [e]) k := by
  intro k
  induction k with
  | zero =>
    intro rest
    simp [genRun, repeatList]
  | succ k1 ih =>
    intro rest
    have harith : (k1 + 1) * (((lookupA inv.slots n).getD []).length + e + 2)
        = ((lookupA inv.slots n).getD []).length + e + 2 +
          k1 * (((lookupA inv.slots n).getD []).length + e + 2) := by ring
    rw [harith, genRun_round inv n e he rest _, ih]
    simp [repeatList]

/-- Claim C6 amended: against an unmutated handle the generator first
yields exactly the partially-filled slots holding `name` (count below
the stack limit), then scans for an empty slot.  If every slot is
occupied the sequence ends there (finite, exactly the partial slots).
If an empty slot exists, the generator yields the smallest empty slot
index and then restarts the entire search, so the unmutated sequence is
periodic and never terminates: each extra round of fuel appends the
partial slots and the same first empty slot again. -/
theorem availableSlots_amended (inv : Inventory) (n : String) :
    (firstEmpty inv = none →
      ∀ f, genRun inv n
        (((lookupA inv.slots n).getD []).length + inv.size + 3 + f)
        [.start] = partialYields inv n) ∧
    (∀ e, firstEmpty inv = some e → ∀ k,
      genRun inv n (k * (((lookupA inv.slots n).getD []).length + e + 2))
        [.start] = repeatList (partialYields inv n ++ [e]) k) := by
  constructor
  · intro hno f
    have hocc : ∀ j, 1 ≤ j → j < 1 + inv.size →
        j ≤ inv.size ∧ lookupA inv.list j ≠ none := by
      intro j h1 h2
      refine ⟨by omega, ?_⟩
      intro hnone
      have hmem : j ∈ List.range' 1 inv.size := List.mem_range'_1.mpr
        ⟨h1, h2⟩
      have := List.find?_eq_none.mp hno j hmem
      rw [hnone] at this
      exact this rfl
    have h1 : ((lookupA inv.slots n).getD []).length + inv.size + 3 + f =
        (((lookupA inv.slots n).getD []).length + inv.size + 2 + f) + 1 := by
      omega
    rw [h1, genRun_start]
    have h2 : ((lookupA inv.slots n).getD []).length + inv.size + 2 + f =
        ((lookupA inv.slots n).getD []).length + (inv.size + 2 + f) := by
      omega
    rw [h2, genRun_p1]
    have h3 : inv.size + 2 + f = (inv.size + 1 + f) + 1 := by omega
    rw [h3, genRun_p1_nil]
    have h4 : inv.size + 1 + f = inv.size + (f + 1) := by omega
    rw [h4, genRun_p2_skip inv n inv.size 1 (f + 1) [] hocc]
    rw [genRun_p2_pop inv n (1 + inv.size) f [] (by omega)]
    rw [genRun_nilState]
    simp [partialYields]
  · intro e he k
    exact genRun_rounds inv n e he k []

/-- A handle with its single slot completely full: no empty slot, no
partial slot. -/
def invFull : Inventory :=
  ⟨"f", .Storage, 1, 64, [("x", [(1, 64)])], [(1, ⟨"x", some 64⟩)]⟩

/-- Witness for the amended C6: the full handle's sequence is finite and
empty; the partial-plus-empty handle repeats `[1, 2]` every round. -/
theorem availableSlots_amended_witness :
    genRun invFull "x"
      ((((lookupA invFull.slots "x").getD []).length + invFull.size + 3) + 0)
      [.start] = partialYields invFull "x" ∧
    genRun srcSlotTwoAbsent "x"
      (2 * (((lookupA srcSlotTwoAbsent.slots "x").getD []).length + 2 + 2))
      [.start] = repeatList (partialYields srcSlotTwoAbsent "x" ++ [2]) 2 :=
  ⟨by
    have := (availableSlots_amended invFull "x").1 (by decide) 0
    simpa using this,
   (availableSlots_amended srcSlotTwoAbsent "x").2 2 (by decide) 2⟩

/-!
## The Data controller: recipes and ingredient resolution

`Recipe` carries the `count` annotation that `gatherIngredients` writes
onto the stored recipe object at runtime (`recipeToUse.count =
recipeMultiplier`); it is `none` for a freshly loaded recipe.  The
recipe stack holds references to the stored objects — embedded as
indices into the registry list, so that mutations through one reference
are visible through every other, exactly as for Lua tables. -/
structure Recipe where
  typeID : String
  input : List (String × Int)
  output : String × Int
  count : Option Int
  deriving DecidableEq, Repr

/-- The `Data` controller state the resolver consults. -/
structure Data where
  recipes : List Recipe
  inventories : List (String × Inventory)
  deriving DecidableEq, Repr

/-- `Data.getTotalItemCount`: total of `getItemCount` over all wrapped
inventories. -/
def getTotalItemCount (d : Data) (name : String) : Int :=
  d.inventories.foldl (fun total p => total + getItemCount p.2 name) 0

/-- `Data.getRecipe`: the first stored recipe whose output name matches,
as a reference (index) into the registry; `none` embeds `undefined`. -/
def getRecipe (recipes : List Recipe) (itemOutput : String) : Option Nat :=
  recipes.findIdx? (fun r => decide (r.output.1 = itemOutput))

/-- `math.ceil(a / b)` on integral Lua numbers (`b ≠ 0` in any loaded
recipe; `b = 0` would be a float infinity in Lua and is not modelled). -/
def ceilDiv (a b : Int) : Int := -((-a).fdiv b)

/-- Result of `gatherIngredients`: the gathered bill-of-materials map,
the deduplicated build plan (as registry references), the registry after
the call (`count` annotations written in place), and the push log —
one `(recipe reference, multiplier at push time)` entry per
`recipeStack.push`. -/
structure GatherOut where
  gathered : List (String × Int)
  plan : List Nat
  recipes : List Recipe
  log : List (Nat × Int)
  deriving DecidableEq, Repr

/-- The main `while (itemsToGather.length !== 0)` loop.  The to-gather
stack is embedded head-first (array `push`/`pop` at the end ↔ cons/head),
so inputs are folded on in order and popped last-pushed-first, as in the
source.  `none` is fuel exhaustion (the source loop does not terminate
on cyclic recipes). -/
def gatherLoop (d : Data) :
    Nat → List (String × Int) → List (String × Int) → List Recipe →
    List (Nat × Int) →
    Option (List (String × Int) × List Recipe × List (Nat × Int))
  | 0, toGather, gathered, reg, log =>
    match toGather with
    | [] => some (gathered, reg, log)
    | _ :: _ => none
  | fuel + 1, toGather, gathered, reg, log =>
    match toGather with
    | [] => some (gathered, reg, log)
    | (name, count) :: rest =>
      let currentUsage := (lookupA gathered name).getD 0
      let totalCount := getTotalItemCount d name
      let craftAmount := count - (totalCount - currentUsage)
      if 0 < craftAmount then
        match getRecipe reg name with
        | some idx =>
          match reg.get? idx with
          | none => none
          | some r =>
            let mult := ceilDiv craftAmount r.output.2
            gatherLoop d fuel
              (r.input.foldl (fun acc p => (p.1, p.2 * mult) :: acc) rest)
              (setA gathered name totalCount)
              (reg.set idx { r with count := some mult })
              (log ++ [(idx, mult)])
        | none =>
          gatherLoop d fuel rest
            (setA gathered name (currentUsage + craftAmount)) reg log
      else
        gatherLoop d fuel rest
          (setA gathered name (currentUsage + count)) reg log

/-- A placeholder recipe for the (unreachable) out-of-range registry
access in the dedup passes; array accesses in the source cannot fail
there because every stack entry was pushed from the registry. -/
def noRecipe : Recipe := ⟨"", [], ("", 0), none⟩

/-- Pass 1 of the duplicate resolution (`duplicateRecipes` loop):
per output name, the first-seen stack position and the running sum of
the stack entries' current `count` fields — read through the references,
which is where the aliasing matters. -/
def dedupCollate (reg : List Recipe) (stack : List Nat) :
    List (String × Nat × Int) :=
  stack.enum.foldl
    (fun (acc : List (String × Nat × Int)) (p : Nat × Nat) =>
      let r := (reg.get? p.2).getD noRecipe
      let cur := (lookupA acc r.output.1).getD (p.1, 0)
      setA acc r.output.1 (cur.1, cur.2 + r.count.getD 0)) []

/-- One step of pass 2 (`newRecipeStack` loop): keep a stack entry only
at its output's first-seen position, writing the summed multiplier back
onto the stored recipe. -/
def dedupStep (dup : List (String × Nat × Int))
    (acc : List Nat × List Recipe) (p : Nat × Nat) :
    List Nat × List Recipe :=
  let r := (acc.2.get? p.2).getD noRecipe
  match lookupA dup r.output.1 with
  | none => acc
  | some data =>
    if p.1 = data.1 then
      (acc.1 ++ [p.2], acc.2.set p.2 { r with count := some data.2 })
    else acc

/-- The duplicate-resolution of `gatherIngredients`: collate, then keep
first occurrences in order. -/
def dedupPlan (reg : List Recipe) (stack : List Nat) :
    List Nat × List Recipe :=
  stack.enum.foldl (dedupStep (dedupCollate reg stack)) ([], reg)

/-- `Data.gatherIngredients` (`src/data.ts`, `src/lib/inventory.ts`). -/
def gatherIngredients (d : Data) (name : String) (count : Int)
    (fuel : Nat) : Option GatherOut :=
  match gatherLoop d fuel [(name, count)] [] d.recipes [] with
  | none => none
  | some (gathered, reg, log) =>
    let pr := dedupPlan reg (log.map Prod.fst)
    some ⟨gathered, pr.1, pr.2, log⟩

/-- The C2 scenario: one storage inventory holding 10 "ingot", one
recipe crafting 1 "block" from 9 "ingot". -/
def invIngot : Inventory :=
  ⟨"s", .Storage, 27, 64, [("ingot", [(1, 10)])], [(1, ⟨"ingot", some 10⟩)]⟩

/-- The "block" recipe: 9 "ingot" → 1 "block". -/
def blockRecipe : Recipe := ⟨"castlr:craft", [("ingot", 9)], ("block", 1), none⟩

/-- The C2 data controller state. -/
def dataC2 : Data := ⟨[blockRecipe], [("s", invIngot)]⟩

/-- Counterexample to claim C2 as stated: crafting 20 "block" with 10
"ingot" in stock does not put `ingot: 180` in the gathered map. -/
theorem gather_ingot_claim_false :
    ¬ ((gatherIngredients dataC2 "block" 20 10).bind
      (fun o => lookupA o.gathered "ingot") = some 180) := by
  decide

/-- Claim C2 amended: the gathered map records `ingot: 170` — the
crafted deficit after netting the 10 in stock against the 180-ingot
consumption; the stock reduces the requirement instead of being added
to the gathered entry.  The plan still crafts "block" 20 times. -/
theorem gather_ingot_170 :
    (gatherIngredients dataC2 "block" 20 10).bind
      (fun o => lookupA o.gathered "ingot") = some 170 ∧
    (gatherIngredients dataC2 "block" 20 10).map (fun o => o.plan) =
      some [0] ∧
    (gatherIngredients dataC2 "block" 20 10).bind
      (fun o => (o.recipes.get? 0).map Recipe.count) = some (some 20) := by
  constructor
  · decide
  · constructor <;> decide

/-- The C3 failing input: a diamond dependency where recipe "X" (for
item X) is discovered twice with different multipliers.  "A" needs one
"B" and one "C"; "B" needs two "X"; "C" needs three "X"; "X" needs one
"Raw"; nothing is in stock. -/
def dataC3 : Data :=
  ⟨[⟨"t:c", [("B", 1), ("C", 1)], ("A", 1), none⟩,
    ⟨"t:c", [("X", 2)], ("B", 1), none⟩,
    ⟨"t:c", [("X", 3)], ("C", 1), none⟩,
    ⟨"t:c", [("Raw", 1)], ("X", 1), none⟩], []⟩

/-- Evaluation of the code at the C3 failing input: the traversal pushes
recipe "X" (registry reference 3) with multiplier 3 and later with
multiplier 2, yet the single deduplicated plan entry for "X" carries
multiplier 4, not 3 + 2 = 5.  Both stack entries alias the one stored
recipe object, whose `count` field was overwritten to 2 by the second
discovery before the dedup pass summed it twice. -/
theorem gather_dedup_alias_eval :
    (gatherIngredients dataC3 "A" 1 30).map
      (fun o => (o.log, o.plan, (o.recipes.get? 3).map Recipe.count)) =
      some ([(0, 1), (2, 1), (3, 3), (1, 1), (3, 2)], [0, 2, 3, 1],
        some (some 4)) := by
  decide

/-! ## Claim C9: what gatherIngredients does to the registry -/

/-- Claim C9 as stated: planning never changes the stored recipes
(all fields, including the count annotation, identical afterwards). -/
def gatherPreservesRegistry : Prop :=
  ∀ (d : Data) (name : String) (count : Int) (fuel : Nat) (o : GatherOut),
    gatherIngredients d name count fuel = some o → o.recipes = d.recipes

/-- Counterexample to claim C9: the C2 scenario's planning call writes
`count := 20` onto the stored "block" recipe, so the registry is not
left identical. -/
theorem gather_registry_claim_false : ¬ gatherPreservesRegistry := by
  intro h
  cases hEv : gatherIngredients dataC2 "block" 20 10 with
  | none => exact absurd hEv (by decide)
  | some o =>
    have hsame := h dataC2 "block" 20 10 o hEv
    have hc : (gatherIngredients dataC2 "block" 20 10).bind
        (fun o => (o.recipes.get? 0).map Recipe.count) =
        some (some 20) := by decide
    rw [hEv] at hc
    simp only [Option.some_bind] at hc
    rw [hsame] at hc
    exact absurd hc (by decide)

/-- The immutable part of a stored recipe: everything but the runtime
count annotation. -/
def recipeCore (r : Recipe) : String × List (String × Int) × (String × Int) :=
  (r.typeID, r.input, r.output)

theorem lt_length_of_get?_some {α : Type} :
    ∀ (l : List α) (i : Nat) (a : α), l.get? i = some a → i < l.length := by
  intro l
  induction l with
  | nil =>
    intro i a h
    cases h
  | cons x t ih =>
    intro i a h
    cases i with
    | zero => simp [List.length_cons]
    | succ i1 =>
      simp only [List.get?] at h
      have := ih i1 a h
      simp only [List.length_cons]
      omega

theorem get?_set_self' {α : Type} :
    ∀ (l : List α) (idx : Nat) (v a : α), l.get? idx = some a →
      (l.set idx v).get? idx = some v := by
  intro l
  induction l with
  | nil =>
    intro idx v a h
    cases h
  | cons x t ih =>
    intro idx v a h
    cases idx with
    | zero => rfl
    | succ i1 =>
      simp only [List.get?] at h
      simp only [List.set, List.get?]
      exact ih i1 v a h

theorem get?_set_other {α : Type} :
    ∀ (l : List α) (idx i : Nat) (v : α), i ≠ idx →
      (l.set idx v).get? i = l.get? i := by
  intro l
  induction l with
  | nil =>
    intro idx i v _
    rfl
  | cons x t ih =>
    intro idx i v hne
    cases idx with
    | zero =>
      cases i with
      | zero => exact absurd rfl hne
      | succ i1 => rfl
    | succ idx1 =>
      cases i with
      | zero => rfl
      | succ i1 =>
        simp only [List.set, List.get?]
        exact ih idx1 i1 v (fun h => hne (by omega))

theorem set_of_get?_none {α : Type} :
    ∀ (l : List α) (idx : Nat) (v : α), l.get? idx = none →
      l.set idx v = l := by
  intro l
  induction l with
  | nil =>
    intro idx v _
    rfl
  | cons x t ih =>
    intro idx v h
    cases idx with
    | zero => cases h
    | succ i1 =>
      simp only [List.get?] at h
      simp only [List.set]
      rw [ih i1 v h]

/-- The registry facts maintained by the gather loop: size and immutable
fields unchanged, and every logged reference in range. -/
theorem gatherLoop_registry (d : Data) :
    ∀ (fuel : Nat) (toGather gathered : List (String × Int))
      (reg : List Recipe) (log : List (Nat × Int))
      (gout : List (String × Int)) (rout : List Recipe)
      (lout : List (Nat × Int)),
      gatherLoop d fuel toGather gathered reg log = some (gout, rout, lout) →
      rout.length = reg.length ∧
      (∀ i, (rout.get? i).map recipeCore = (reg.get? i).map recipeCore) ∧
      (∀ p ∈ lout, p ∈ log ∨ p.1 < reg.length) := by
  intro fuel
  induction fuel with
  | zero =>
    intro toGather gathered reg log gout rout lout hok
    cases toGather with
    | nil =>
      simp only [gatherLoop] at hok
      injection hok with hok
      injection hok with h1 hok
      injection hok with h2 h3
      subst h2
      subst h3
      exact ⟨rfl, fun i => rfl, fun p hp => Or.inl hp⟩
    | cons q rest =>
      simp only [gatherLoop] at hok
      exact Option.noConfusion hok
  | succ f ih =>
    intro toGather gathered reg log gout rout lout hok
    cases toGather with
    | nil =>
      simp only [gatherLoop] at hok
      injection hok with hok
      injection hok with h1 hok
      injection hok with h2 h3
      subst h2
      subst h3
      exact ⟨rfl, fun i => rfl, fun p hp => Or.inl hp⟩
    | cons q rest =>
      obtain ⟨name, count⟩ := q
      simp only [gatherLoop] at hok
      split at hok
      case isTrue =>
        cases hrec : getRecipe reg name with
        | some idx =>
          rw [hrec] at hok
          dsimp only at hok
          cases hget : reg.get? idx with
          | none =>
            rw [hget] at hok
            exact Option.noConfusion hok
          | some r =>
            rw [hget] at hok
            dsimp only at hok
            have hidx := lt_length_of_get?_some reg idx r hget
            have h1 := ih _ _ _ _ _ _ _ hok
            refine ⟨?_, ?_, ?_⟩
            · rw [h1.1, List.length_set]
            · intro i
              rw [h1.2.1 i]
              by_cases hi : i = idx
              · subst hi
                rw [get?_set_self' reg i _ r hget, hget]
                rfl
              · rw [get?_set_other reg idx i _ hi]
            · intro p hp
              rcases h1.2.2 p hp with hmem | hlt
              · rcases List.mem_append.mp hmem with hmem' | hmem'
                · exact Or.inl hmem'
                · rw [List.mem_singleton] at hmem'
                  subst hmem'
                  exact Or.inr hidx
              · rw [List.length_set] at hlt
                exact Or.inr hlt
        | none =>
          rw [hrec] at hok
          dsimp only at hok
          exact ih _ _ _ _ _ _ _ hok
      case isFalse =>
        exact ih _ _ _ _ _ _ _ hok

theorem dedupStep_regLength (dup : List (String × Nat × Int))
    (acc : List Nat × List Recipe) (p : Nat × Nat) :
    (dedupStep dup acc p).2.length = acc.2.length := by
  simp only [dedupStep]
  split
  · rfl
  · split
    · simp [List.length_set]
    · rfl

theorem dedupStep_regCore (dup : List (String × Nat × Int))
    (acc : List Nat × List Recipe) (p : Nat × Nat) (i : Nat) :
    ((dedupStep dup acc p).2.get? i).map recipeCore =
      (acc.2.get? i).map recipeCore := by
  simp only [dedupStep]
  split
  · rfl
  · split
    · cases hget : acc.2.get? p.2 with
      | none =>
        simp only [Option.getD_none]
        rw [set_of_get?_none _ _ _ hget]
      | some r0 =>
        simp only [Option.getD_some]
        by_cases hi : i = p.2
        · subst hi
          rw [get?_set_self' _ _ _ r0 hget, hget]
          rfl
        · rw [get?_set_other _ _ _ _ hi]
    · rfl

theorem dedupStep_plan (dup : List (String × Nat × Int))
    (acc : List Nat × List Recipe) (p : Nat × Nat) :
    (dedupStep dup acc p).1 = acc.1 ∨
      (dedupStep dup acc p).1 = acc.1 ++ [p.2] := by
  simp only [dedupStep]
  split
  · exact Or.inl rfl
  · split
    · exact Or.inr rfl
    · exact Or.inl rfl

theorem dedup_foldl_inv (dup : List (String × Nat × Int)) :
    ∀ (l : List (Nat × Nat)) (acc : List Nat × List Recipe),
      ((l.foldl (dedupStep dup) acc).2.length = acc.2.length) ∧
      (∀ i, ((l.foldl (dedupStep dup) acc).2.get? i).map recipeCore =
        (acc.2.get? i).map recipeCore) ∧
      (∀ j ∈ (l.foldl (dedupStep dup) acc).1,
        j ∈ acc.1 ∨ ∃ p ∈ l, j = p.2) := by
  intro l
  induction l with
  | nil =>
    intro acc
    exact ⟨rfl, fun i => rfl, fun j hj => Or.inl hj⟩
  | cons p t ih =>
    intro acc
    simp only [List.foldl_cons]
    obtain ⟨hL, hC, hP⟩ := ih (dedupStep dup acc p)
    refine ⟨?_, ?_, ?_⟩
    · rw [hL, dedupStep_regLength]
    · intro i
      rw [hC i, dedupStep_regCore]
    · intro j hj
      rcases hP j hj with hj' | hj'
      · rcases dedupStep_plan dup acc p with he | he
        · rw [he] at hj'
          exact Or.inl hj'
        · rw [he] at hj'
          rcases List.mem_append.mp hj' with h1 | h1
          · exact Or.inl h1
          · rw [List.mem_singleton] at h1
            subst h1
            exact Or.inr ⟨p, List.mem_cons_self _ _, rfl⟩
      · obtain ⟨q, hq, rfl⟩ := hj'
        exact Or.inr ⟨q, List.mem_cons_of_mem _ hq, rfl⟩

theorem snd_mem_of_mem_enumFrom {α : Type} :
    ∀ (l : List α) (k : Nat) (p : Nat × α),
      p ∈ List.enumFrom k l → p.2 ∈ l := by
  intro l
  induction l with
  | nil =>
    intro k p h
    cases h
  | cons a t ih =>
    intro k p h
    simp only [List.enumFrom] at h
    rcases List.mem_cons.mp h with h1 | h1
    · subst h1
      exact List.mem_cons_self _ _
    · exact List.mem_cons_of_mem _ (ih (k + 1) p h1)

theorem dedupPlan_registry (reg : List Recipe) (stack : List Nat) :
    (dedupPlan reg stack).2.length = reg.length ∧
    (∀ i, ((dedupPlan reg stack).2.get? i).map recipeCore =
      (reg.get? i).map recipeCore) ∧
    (∀ j ∈ (dedupPlan reg stack).1, j ∈ stack) := by
  unfold dedupPlan
  obtain ⟨hL, hC, hP⟩ :=
    dedup_foldl_inv (dedupCollate reg stack) stack.enum ([], reg)
  refine ⟨hL, hC, ?_⟩
  intro j hj
  rcases hP j hj with hj' | hj'
  · cases hj'
  · obtain ⟨p, hp, rfl⟩ := hj'
    exact snd_mem_of_mem_enumFrom stack 0 p hp

/-- Claim C9 amended: `gatherIngredients` does mutate the recipe
registry's runtime `count` annotations and its returned plan entries are
references to the registry's own stored recipes — but it never changes
any recipe's `typeID`, inputs or output, never changes the registry's
size, and every plan entry references a valid stored recipe. -/
theorem gather_registry_fields (d : Data) (name : String) (count : Int)
    (fuel : Nat) (o : GatherOut)
    (hok : gatherIngredients d name count fuel = some o) :
    o.recipes.length = d.recipes.length ∧
    (∀ i, (o.recipes.get? i).map recipeCore =
      (d.recipes.get? i).map recipeCore) ∧
    (∀ j ∈ o.plan, j < o.recipes.length) := by
  unfold gatherIngredients at hok
  cases hLoop : gatherLoop d fuel [(name, count)] [] d.recipes [] with
  | none =>
    rw [hLoop] at hok
    exact Option.noConfusion hok
  | some r3 =>
    obtain ⟨g, reg, log⟩ := r3
    rw [hLoop] at hok
    dsimp only at hok
    injection hok with hok
    subst hok
    obtain ⟨hL1, hC1, hP1⟩ := gatherLoop_registry d fuel _ _ _ _ _ _ _ hLoop
    obtain ⟨hL2, hC2, hP2⟩ := dedupPlan_registry reg (log.map Prod.fst)
    refine ⟨hL2.trans hL1, fun i => (hC2 i).trans (hC1 i), ?_⟩
    intro j hj
    have hjs := hP2 j hj
    rw [List.mem_map] at hjs
    obtain ⟨p, hp, rfl⟩ := hjs
    rcases hP1 p hp with h0 | hlt
    · cases h0
    · rw [hL2.trans hL1]
      exact hlt

/-- The planning output of the C2 scenario, used as the C9 witness
instance. -/
def gatherOutC2 : GatherOut :=
  ⟨[("block", 0), ("ingot", 170)], [0],
    [⟨"castlr:craft", [("ingot", 9)], ("block", 1), some 20⟩], [(0, 20)]⟩

/-- Witness for the amended C9 at the concrete C2 scenario. -/
theorem gather_registry_fields_witness :
    gatherOutC2.recipes.length = dataC2.recipes.length ∧
    (gatherOutC2.recipes.get? 0).map recipeCore =
      (dataC2.recipes.get? 0).map recipeCore :=
  ⟨(gather_registry_fields dataC2 "block" 20 10 gatherOutC2 (by decide)).1,
   (gather_registry_fields dataC2 "block" 20 10 gatherOutC2 (by decide)).2.1 0⟩

/-!
## Storage.moveItemFromMany (claim C10)

The storage map (`_inventories`) is threaded explicitly; the destination
handle object is fetched once and written back at the end, which matches
the source's shared-object mutation whenever the destination is not also
a source.  The peripheral is the honest oracle (caches in sync with the
physical inventories, as after construction). -/

/-- The inner `for (const [fromSlot] of slotCounts)` loop of
`moveItemFromMany`: push from each cached slot of the item, decrementing
the remaining limit by the returned amount, stopping once it reaches 0.
`none` embeds a crash or exhausted fuel inside `pushItems` (including
the type error `limit -= undefined` would raise if a source had Input
role). -/
def moveSlotsLoop (fuel : Nat) :
    List Nat → Int → Inventory → Inventory →
    Option (Int × Inventory × Inventory)
  | [], limit, src, dst => some (limit, src, dst)
  | s :: rest, limit, src, dst =>
    match pushItems honestOracle fuel src dst s (some limit) with
    | .crash => none
    | .fuelOut => none
    | .ok out =>
      match out.ret with
      | none => none
      | some moved =>
        if limit - moved ≤ 0 then some (limit - moved, out.src, out.dst)
        else moveSlotsLoop fuel rest (limit - moved) out.src out.dst

/-- The outer source loop of `moveItemFromMany`. -/
def moveManyLoop (fuel : Nat) :
    List String → List (String × Inventory) → Inventory → String → Int →
    Option (Int × List (String × Inventory) × Inventory)
  | [], invMap, dst, _, limit => some (limit, invMap, dst)
  | srcName :: rest, invMap, dst, name, limit =>
    match lookupA invMap srcName with
    | none => none
    | some srcInv =>
      match moveSlotsLoop fuel
        (keysOf ((lookupA srcInv.slots name).getD [])) limit srcInv dst with
      | none => none
      | some (limit', src', dst') =>
        if limit' ≤ 0 then some (limit', setA invMap srcName src', dst')
        else moveManyLoop fuel rest (setA invMap srcName src') dst' name
          limit'

/-- `Storage.moveItemFromMany` (`src/storage.ts`): returns the amount
actually moved (`startingLimit` on early exit, `startingLimit - limit`
otherwise) together with the updated storage map. -/
def moveItemFromMany (fuel : Nat) (invMap : List (String × Inventory))
    (fromList : List String) (toName : String) (name : String)
    (limit : Int) : Option (Int × List (String × Inventory)) :=
  match lookupA invMap toName with
  | none => none
  | some destInv =>
    match moveManyLoop fuel fromList invMap destInv name limit with
    | none => none
    | some (limit', invMap', dst') =>
      some (if limit' ≤ 0 then limit else limit - limit',
        setA invMap' toName dst')

/-- Source "a": one slot holding 10 of "item". -/
def invA : Inventory :=
  ⟨"a", .Storage, 1, 64, [("item", [(1, 10)])], [(1, ⟨"item", some 10⟩)]⟩

/-- Source "b": one slot holding 10 of "item". -/
def invB : Inventory :=
  ⟨"b", .Storage, 1, 64, [("item", [(1, 10)])], [(1, ⟨"item", some 10⟩)]⟩

/-- Source "c": one slot holding 40 of "item". -/
def invC : Inventory :=
  ⟨"c", .Storage, 1, 64, [("item", [(1, 40)])], [(1, ⟨"item", some 40⟩)]⟩

/-- The empty destination "d" with ample room (one 64-stack slot). -/
def invD : Inventory := ⟨"d", .Storage, 1, 64, [], []⟩

/-- The storage map of the C10 scenario. -/
def mapC10 : List (String × Inventory) :=
  [("a", invA), ("b", invB), ("c", invC), ("d", invD)]

/-- Claim C10: with sources holding 10, 10 and 40 units of "item" (each
within per-slot stack limits) and a destination with room,
`moveItemFromMany` with limit 50 returns exactly 50 and leaves exactly
10 units in total across the three sources, for every iteration order
over the source set. -/
theorem moveItemFromMany_fifty (order : List String)
    (h : order.Perm ["a", "b", "c"]) :
    (moveItemFromMany 50 mapC10 order "d" "item" 50).map
      (fun r => (r.1,
        getItemCount ((lookupA r.2 "a").getD invD) "item" +
          getItemCount ((lookupA r.2 "b").getD invD) "item" +
          getItemCount ((lookupA r.2 "c").getD invD) "item")) =
      some (50, 10) := by
  have hlen : order.length = 3 := h.length_eq
  rcases order with _ | ⟨x, _ | ⟨y, _ | ⟨z, _ | ⟨w, t⟩⟩⟩⟩
  · exact absurd hlen (by decide)
  · simp only [List.length_cons, List.length_nil] at hlen
    omega
  · simp only [List.length_cons, List.length_nil] at hlen
    omega
  · have hx : x ∈ (["a", "b", "c"] : List String) :=
      h.mem_iff.mp (by simp)
    have hy : y ∈ (["a", "b", "c"] : List String) :=
      h.mem_iff.mp (by simp)
    have hz : z ∈ (["a", "b", "c"] : List String) :=
      h.mem_iff.mp (by simp)
    simp only [List.mem_cons, List.not_mem_nil, or_false] at hx hy hz
    rcases hx with rfl | rfl | rfl <;> rcases hy with rfl | rfl | rfl <;>
      rcases hz with rfl | rfl | rfl <;>
      first
        | decide
        | exact absurd (h.count_eq "a") (by decide)
        | exact absurd (h.count_eq "b") (by decide)
  · simp only [List.length_cons] at hlen
    omega

/-- Witness for C10 at the order a, b, c. -/
theorem moveItemFromMany_fifty_witness :
    (moveItemFromMany 50 mapC10 ["a", "b", "c"] "d" "item" 50).map
      (fun r => (r.1,
        getItemCount ((lookupA r.2 "a").getD invD) "item" +
          getItemCount ((lookupA r.2 "b").getD invD) "item" +
          getItemCount ((lookupA r.2 "c").getD invD) "item")) =
      some (50, 10) :=
  moveItemFromMany_fifty ["a", "b", "c"] (List.Perm.refl _)

end Castlr
